import Mathlib

/-!
Verification of `ch18-table-driven-methods/buoy.cc`.

A shallow embedding of the table-driven message decoder of `buoy.cc` and the
properties established about it.

Conventions of the embedding.

* A `std::string` is a `List Char`, one `Char` per `char`.
* The platform is LP64: `int` has 32 bits, `long`, `unsigned long long` and
  `size_t` have 64 bits, `double` is IEEE-754 binary64.
* A file that was opened successfully is the list of its lines, in the order
  `getline` returns them.
* `std::cout` is the text written to it; `LOG` writes to `stderr` and is not
  part of the model.
* The C library functions the program calls (`atol`, `strtoull`, `strtod`) and
  `boost::split` are modelled after their documented behaviour.
-/

namespace Buoy

/-- The contents of a `std::string`. -/
abbrev Str := List Char

/-! ## Machine integers -/

def INT_MIN : Int := -(2 ^ 31)
def INT_MAX : Int := 2 ^ 31 - 1
def LONG_MIN : Int := -(2 ^ 63)
def LONG_MAX : Int := 2 ^ 63 - 1
def ULLONG_MAX : Nat := 2 ^ 64 - 1

/-- Conversion of an integer value to `int`: reduction modulo `2^32` into
`[-2^31, 2^31)`. -/
def toInt32 (v : Int) : Int := (v + 2 ^ 31) % 2 ^ 32 - 2 ^ 31

/-! ## Characters and digits -/

/-- `isspace` in the "C" locale: space, `\t`, `\n`, `\v`, `\f`, `\r`. -/
def isspace (c : Char) : Bool :=
  c.toNat = 32 || (9 ≤ c.toNat && c.toNat ≤ 13)

/-- `isdigit`. -/
def isdigit (c : Char) : Bool := 48 ≤ c.toNat && c.toNat ≤ 57

/-- Value of a decimal digit character. -/
def digitVal (c : Char) : Nat := c.toNat - 48

/-- Value of the longest prefix of decimal digits, continuing from `acc`. -/
def digitsValue : Nat → Str → Nat
  | acc, [] => acc
  | acc, c :: cs => if isdigit c then digitsValue (acc * 10 + digitVal c) cs else acc

/-- The text that follows the leading white space. -/
def skipSpace : Str → Str
  | [] => []
  | c :: cs => if isspace c then skipSpace cs else c :: cs

/-! ## `atol` and `strtoull` -/

/-- `strtol(s, NULL, 10)`: leading white space is skipped, an optional sign is
read, then the longest run of decimal digits; without digits the result is `0`;
a value outside `long` is clamped to `LONG_MIN` / `LONG_MAX`. -/
def strtol10 (s : Str) : Int :=
  match skipSpace s with
  | [] => 0
  | c :: cs =>
    if c = '-' then max LONG_MIN (-(digitsValue 0 cs : Int))
    else if c = '+' then min LONG_MAX (digitsValue 0 cs : Int)
    else min LONG_MAX (digitsValue 0 (c :: cs) : Int)

/-- `atol(s)`, which the C library defines as `strtol(s, NULL, 10)`. (The C
standard leaves the result undefined when the value does not fit in `long`;
the library function clamps.) -/
def atol (s : Str) : Int := strtol10 s

/-- `strtoull(s, NULL, 10)`: white space, optional sign, decimal digits; a
magnitude above `ULLONG_MAX` gives `ULLONG_MAX`; a leading `-` negates the
magnitude in 64-bit unsigned arithmetic. -/
def strtoull (s : Str) : Nat :=
  match skipSpace s with
  | [] => 0
  | c :: cs =>
    if c = '-' then
      (if digitsValue 0 cs > ULLONG_MAX then ULLONG_MAX
       else (2 ^ 64 - digitsValue 0 cs) % 2 ^ 64)
    else if c = '+' then min ULLONG_MAX (digitsValue 0 cs)
    else min ULLONG_MAX (digitsValue 0 (c :: cs))

/-! ## `double`, `strtod` and the conversion to `int` -/

/-- A value of type `double`: the finite number `(-1)^neg * num / den`, an
infinity, or a NaN. -/
inductive Dbl
  | finite (neg : Bool) (num den : Nat)
  | inf (neg : Bool)
  | nan (neg : Bool)
deriving DecidableEq, Repr

/-- Round-half-to-even of the quotient `a / b` to an integer. -/
def roundHalfEven (a b : Nat) : Nat :=
  if 2 * (a % b) < b then a / b
  else if b < 2 * (a % b) then a / b + 1
  else if (a / b) % 2 = 0 then a / b else a / b + 1

/-- Whether `2^e ≤ num / den`. -/
def pow2Le (e : Int) (num den : Nat) : Bool :=
  if 0 ≤ e then den * 2 ^ e.toNat ≤ num else den ≤ num * 2 ^ (-e).toNat

/-- Halving `n` until it drops below `2`, at most `fuel` times. -/
def log2Aux : Nat → Nat → Nat
  | 0, _ => 0
  | fuel + 1, n => if 2 ≤ n then log2Aux fuel (n / 2) + 1 else 0

/-- The bit position `⌊log₂ n⌋` of the leading bit of `n` (`0` for `n = 0`). -/
def log2 (n : Nat) : Nat := log2Aux n n

/-- The binary exponent `⌊log₂ (num / den)⌋` of a positive rational. -/
def floorLog2 (num den : Nat) : Int :=
  if pow2Le ((log2 num : Int) - (log2 den : Int)) num den
  then (log2 num : Int) - (log2 den : Int)
  else (log2 num : Int) - (log2 den : Int) - 1

/-- The binary64 number nearest to `num / den` (ties to even), as a fraction;
`none` when the rounded magnitude is `2^1024` or more (overflow). Magnitudes
below `2^-1022` are rounded on the subnormal grid `2^-1074`. -/
def roundBinary64 (num den : Nat) : Option (Nat × Nat) :=
  if num = 0 then some (0, 1)
  else
    let k : Int := max (floorLog2 num den) (-1022) - 52
    if 0 ≤ k then
      (if 2 ^ 1024 ≤ roundHalfEven num (den * 2 ^ k.toNat) * 2 ^ k.toNat then none
       else some (roundHalfEven num (den * 2 ^ k.toNat) * 2 ^ k.toNat, 1))
    else some (roundHalfEven (num * 2 ^ (-k).toNat) den, 2 ^ (-k).toNat)

/-- `isxdigit`. -/
def isxdigit (c : Char) : Bool :=
  isdigit c || (97 ≤ c.toNat && c.toNat ≤ 102) || (65 ≤ c.toNat && c.toNat ≤ 70)

/-- Value of a hexadecimal digit character. -/
def hexVal (c : Char) : Nat :=
  if isdigit c then c.toNat - 48
  else if 97 ≤ c.toNat then c.toNat - 87 else c.toNat - 55

/-- The number written by a list of digits in the given base. -/
def numeral (base : Nat) (dv : Char → Nat) (ds : Str) : Nat :=
  ds.foldl (fun acc c => acc * base + dv c) 0

/-- ASCII lower-casing of a letter, as `tolower` does in the "C" locale. -/
def tolower (c : Char) : Char :=
  if 65 ≤ c.toNat && c.toNat ≤ 90 then Char.ofNat (c.toNat + 32) else c

/-- The exponent part of a floating literal: after the exponent letter an
optional sign and at least one decimal digit; without a digit there is no
exponent part and the exponent is `0`. -/
def exponentPart (letter : Char) (s : Str) : Int :=
  match s with
  | [] => 0
  | c :: cs =>
    if tolower c = letter then
      match cs with
      | [] => 0
      | x :: xs =>
        if x = '-' then -(digitsValue 0 xs : Int)
        else if x = '+' then (digitsValue 0 xs : Int)
        else (digitsValue 0 (x :: xs) : Int)
    else 0

/-- The fraction `m * base^e` as numerator and denominator. -/
def scaled (m base : Nat) (e : Int) : Nat × Nat :=
  if 0 ≤ e then (m * base ^ e.toNat, 1) else (m, base ^ (-e).toNat)

/-- The mantissa of a floating literal: the digits before and after the radix
character `.`, and the text that follows them. -/
def mantissa (isd : Char → Bool) (s : Str) : Str × Str × Str :=
  match (s.span isd).2 with
  | [] => ((s.span isd).1, [], [])
  | c :: cs =>
    if c = '.' then ((s.span isd).1, (cs.span isd).1, (cs.span isd).2)
    else ((s.span isd).1, [], c :: cs)

/-- The exact value of the longest decimal floating literal
`digits [. digits] [e [sign] digits]` at the start of `s`; `none` when `s`
starts with no such literal. -/
def decimalLiteral (s : Str) : Option (Nat × Nat) :=
  match mantissa isdigit s with
  | (ip, fp, rest) =>
    if ip = [] ∧ fp = [] then none
    else some (scaled (numeral 10 digitVal (ip ++ fp)) 10
                 (exponentPart 'e' rest - (fp.length : Int)))

/-- The exact value of the longest hexadecimal floating literal
`hexdigits [. hexdigits] [p [sign] digits]` at the start of `s` (the text after
`0x`); `none` when there is no hexadecimal digit. -/
def hexLiteral (s : Str) : Option (Nat × Nat) :=
  match mantissa isxdigit s with
  | (ip, fp, rest) =>
    if ip = [] ∧ fp = [] then none
    else some (scaled (numeral 16 hexVal (ip ++ fp)) 2
                 (exponentPart 'p' rest - 4 * (fp.length : Int)))

/-- The magnitude `strtod` reads after the white space and the sign:
`inf`/`infinity` and `nan` in any letter case, a hexadecimal literal after
`0x`, else a decimal literal; `0` when nothing can be converted. The exact value
is rounded to binary64, an overflow giving `HUGE_VAL` (infinity). -/
def strtodMagnitude (neg : Bool) (s : Str) : Dbl :=
  if (s.take 3).map tolower = ['i', 'n', 'f'] then Dbl.inf neg
  else if (s.take 3).map tolower = ['n', 'a', 'n'] then Dbl.nan neg
  else
    let hex : Option (Nat × Nat) :=
      if (s.take 2).map tolower = ['0', 'x'] then hexLiteral (s.drop 2) else none
    match (match hex with | some v => some v | none => decimalLiteral s) with
    | none => Dbl.finite false 0 1
    | some (num, den) =>
      match roundBinary64 num den with
      | none => Dbl.inf neg
      | some (n, d) => Dbl.finite neg n d

/-- `std::strtod(s, NULL)`. -/
def strtod (s : Str) : Dbl :=
  match skipSpace s with
  | [] => Dbl.finite false 0 1
  | c :: cs =>
    if c = '-' then strtodMagnitude true cs
    else if c = '+' then strtodMagnitude false cs
    else strtodMagnitude false (c :: cs)

/-- Conversion of a `double` to `int`: truncation toward zero. When the
truncated value is not representable in `int` (also for an infinity or a NaN)
the C++ standard leaves the conversion undefined; the model takes what the
x86-64 conversion instruction produces, `INT_MIN`. -/
def Dbl.toInt : Dbl → Int
  | Dbl.finite neg num den =>
    if neg then (if INT_MIN ≤ -((num / den : Nat) : Int) then -((num / den : Nat) : Int) else INT_MIN)
    else (if ((num / den : Nat) : Int) ≤ INT_MAX then ((num / den : Nat) : Int) else INT_MIN)
  | Dbl.inf _ => INT_MIN
  | Dbl.nan _ => INT_MIN

/-! ## Stream insertion: the text `operator<<` writes -/

/-- The decimal digits of a natural number. -/
def showNat (n : Nat) : Str := Nat.toDigits 10 n

/-- `std::cout << v` for a signed integer: decimal, `-` before a negative. -/
def showInt (v : Int) : Str :=
  if v < 0 then '-' :: showNat v.natAbs else showNat v.natAbs

/-- `std::cout << std::boolalpha << b`. -/
def showBool (b : Bool) : Str := if b then "true".toList else "false".toList

/-- The text without its trailing `0` characters. -/
def stripZeros (ds : Str) : Str := (ds.reverse.dropWhile (fun c => c = '0')).reverse

/-- The least `j` from `j` on with `den ≤ num * 10^j`, looking at most `fuel`
steps ahead. -/
def negExpSearch (num den : Nat) : Nat → Nat → Nat
  | 0, j => j
  | fuel + 1, j => if den ≤ num * 10 ^ j then j else negExpSearch num den fuel (j + 1)

/-- The decimal exponent `⌊log₁₀ (num / den)⌋` of a positive rational. -/
def floorLog10 (num den : Nat) : Int :=
  if den ≤ num then ((showNat (num / den)).length : Int) - 1
  else -(negExpSearch num den den 1 : Int)

/-- The quotient `num / den` divided by `10^(x-5)` and rounded half-to-even: the
six leading decimal digits of a number with decimal exponent `x`. -/
def sixDigits (num den : Nat) (x : Int) : Nat :=
  if 5 ≤ x then roundHalfEven num (den * 10 ^ (x - 5).toNat)
  else roundHalfEven (num * 10 ^ (5 - x).toNat) den

/-- The exponent of the `%e` style: a sign and at least two digits. -/
def showExp (x : Int) : Str :=
  (if x < 0 then '-' else '+') ::
    (if x.natAbs < 10 then '0' :: showNat x.natAbs else showNat x.natAbs)

/-- The `%g` conversion with precision 6 of the positive number whose six
significant digits are `ds` and whose decimal exponent is `x`: `%e` style when
`x < -4` or `x ≥ 6`, else `%f` style, trailing zeros removed in both. -/
def layoutG6 (ds : Str) (x : Int) : Str :=
  if x < -4 ∨ 6 ≤ x then
    (match stripZeros ds with
     | [] => []
     | [d0] => [d0]
     | d0 :: rest => d0 :: '.' :: rest) ++ 'e' :: showExp x
  else if 0 ≤ x then
    (match stripZeros (ds.drop (x.toNat + 1)) with
     | [] => ds.take (x.toNat + 1)
     | fr => ds.take (x.toNat + 1) ++ '.' :: fr)
  else '0' :: '.' :: (List.replicate ((-x).toNat - 1) '0' ++ stripZeros ds)

/-- `%g` with precision 6 for a positive rational: the value is rounded to six
significant digits; when that carries to `10^6` the exponent grows by one. -/
def fmtG6 (num den : Nat) : Str :=
  if sixDigits num den (floorLog10 num den) = 10 ^ 6
  then layoutG6 (showNat (10 ^ 5)) (floorLog10 num den + 1)
  else layoutG6 (showNat (sixDigits num den (floorLog10 num den))) (floorLog10 num den)

/-- `std::cout << d` for a `double` with the stream's default format: the
`%g` conversion with precision 6. -/
def showDouble : Dbl → Str
  | Dbl.finite neg num den =>
    (if neg then ['-'] else []) ++ (if num = 0 then ['0'] else fmtG6 num den)
  | Dbl.inf neg => (if neg then ['-'] else []) ++ "inf".toList
  | Dbl.nan neg => (if neg then ['-'] else []) ++ "nan".toList

/-- What `std::endl` writes. -/
def endl : Str := ['\n']

/-! ## `boost::split` and `std::string` members -/

/-- Tokens of `s` under `boost::split(result, s, pred, boost::token_compress_on)`.
The flag tells that the previous character was a separator: a run of adjacent
separators ends one token only. The token before the first separator and the
token after the last one are kept also when they are empty. -/
def splitAux (pred : Char → Bool) : Bool → Str → List Str
  | _, [] => [[]]
  | inRun, c :: cs =>
    if pred c then
      (if inRun then splitAux pred true cs else [] :: splitAux pred true cs)
    else
      match splitAux pred false cs with
      | [] => [[c]]
      | t :: ts => (c :: t) :: ts

/-- `boost::split(result, s, boost::is_any_of(sep), boost::token_compress_on)`
for a one-character separator set. -/
def boost_split (sep : Char) (s : Str) : List Str :=
  splitAux (fun c => c = sep) false s

/-- `std::string::npos`, the largest `size_t`. -/
def npos : Nat := 2 ^ 64 - 1

/-- Index of the first `c` at or after index `i` of the text whose tail from
`i` is given, or `npos`. -/
def findFrom (c : Char) : Str → Nat → Nat
  | [], _ => npos
  | x :: xs, i => if x = c then i else findFrom c xs (i + 1)

/-- `s.find(c)`. -/
def find (s : Str) (c : Char) : Nat := findFrom c s 0

/-- `s.substr(pos, count)` for `pos ≤ s.size()`: the characters from `pos`, at
most `count` of them. -/
def substr (s : Str) (pos count : Nat) : Str := (s.drop pos).take count

/-- `s.starts_with(c)`. -/
def starts_with (s : Str) (c : Char) : Bool :=
  match s with
  | [] => false
  | x :: _ => x = c

/-! ## Field types and the registry -/

/-- `enum class FieldType : size_t`: a value of the underlying type. -/
structure FieldType where
  val : Nat
deriving DecidableEq, Repr

namespace FieldType

def TYPE_INT : FieldType := ⟨0⟩
def TYPE_BOOL : FieldType := ⟨1⟩
def TYPE_DOUBLE : FieldType := ⟨2⟩
def TYPE_STRING : FieldType := ⟨3⟩
def TYPE_TIMESTAMP : FieldType := ⟨4⟩

end FieldType

/-- The table `type_from_name`. -/
def type_from_name : List (Str × FieldType) :=
  [ ("int".toList, FieldType.TYPE_INT),
    ("bool".toList, FieldType.TYPE_BOOL),
    ("double".toList, FieldType.TYPE_DOUBLE),
    ("string".toList, FieldType.TYPE_STRING),
    ("ts".toList, FieldType.TYPE_TIMESTAMP) ]

/-- `type_from_name.find(type)`: `none` stands for `type_from_name.end()`. -/
def type_from_name_find (type : Str) : Option FieldType :=
  match type_from_name.find? (fun e => e.1 = type) with
  | none => none
  | some e => some e.2

/-! ## `ProcessMessageField` -/

namespace ProcessMessageField

/-- `int ival = atol(msg.c_str());` -/
def ival (msg : Str) : Int := toInt32 (atol msg)

/-- `bool b = static_cast<bool>(atol(msg.c_str()));` -/
def b (msg : Str) : Bool := decide (atol msg ≠ 0)

/-- `double d = std::strtod(msg.c_str(), NULL);` -/
def d (msg : Str) : Dbl := strtod msg

/-- `unsigned long long ts = std::strtoull(msg.c_str(), NULL, 10);` -/
def ts (msg : Str) : Nat := strtoull msg

end ProcessMessageField

/-- The function `ProcessMessageField`: its return value and the text it writes
to `std::cout`. -/
def ProcessMessageField (msg : Str) (type : FieldType) : Int × Str :=
  match type.val with
  | 0 => (0, showInt (ProcessMessageField.ival msg) ++ [','] ++ endl)
  | 1 => (0, showBool (ProcessMessageField.b msg) ++ [','] ++ endl)
  | 2 => (0, showDouble (ProcessMessageField.d msg) ++ [','] ++ endl)
  | 3 => (0, msg ++ [','] ++ endl)
  | 4 => (0, "parsed_ts=".toList ++ showNat (ProcessMessageField.ts msg) ++ [','] ++ endl)
  | _ => (-1, [])

/-! ## `MessagePattern` -/

/-- The data members of `struct MessagePattern`. -/
structure MessagePattern where
  _num_fields : Nat
  _msg_id : Int
  _msg_name : Str
  _msg_fields : List (Str × FieldType)
deriving DecidableEq, Repr

/-- The two places where `readFromLine` returns `-1`. -/
inductive ReadError
  | malformed
  | unknownType
deriving DecidableEq, Repr

deriving instance DecidableEq for Except

namespace MessagePattern

/-- One pass of the loop over `fields[i]`, `i ≥ 2`: the pair appended to
`_msg_fields`, or `none` when the type name is not in `type_from_name`. The
arithmetic on `middle_pos` is that of `size_t`. -/
def readField (field : Str) : Option (Str × FieldType) :=
  match type_from_name_find
      (substr field ((find field ':' + 1) % 2 ^ 64)
        ((field.length + 2 ^ 64 - find field ':') % 2 ^ 64)) with
  | none => none
  | some t => some (substr field 0 (find field ':'), t)

/-- The loop `for (size_t i = 2; i < fields.size(); ++i)` over the segments
from the third on: it stops with `-1` at the first unknown type name. -/
def readFields : List Str → Option (List (Str × FieldType))
  | [] => some []
  | field :: rest =>
    match readField field with
    | none => none
    | some f =>
      match readFields rest with
      | none => none
      | some fs => some (f :: fs)

/-- The member function `readFromLine` on a freshly constructed
`MessagePattern`: the object it leaves when it returns `0`, or the place where it
returns `-1`. -/
def readFromLine (line : Str) : Except ReadError MessagePattern :=
  match boost_split ';' line with
  | f0 :: f1 :: f2 :: rest =>
    match readFields (f2 :: rest) with
    | none => Except.error ReadError.unknownType
    | some fs =>
      Except.ok
        { _num_fields := (f0 :: f1 :: f2 :: rest).length,
          _msg_id := (strtod f0).toInt,
          _msg_name := f1,
          _msg_fields := fs }
  | _ => Except.error ReadError.malformed

end MessagePattern

/-! ## `MessagePatternManager` -/

/-- The member `std::map<int, MessagePattern> _patterns`, as the list of its
entries. -/
abbrev Patterns := List (Int × MessagePattern)

namespace Patterns

/-- `_patterns.find(key)`: `none` stands for `_patterns.end()`. -/
def find (m : Patterns) (key : Int) : Option MessagePattern :=
  match List.find? (fun e => e.1 = key) m with
  | none => none
  | some e => some e.2

/-- `_patterns.emplace(key, value)`: the map is left as it is when it already
holds `key`. -/
def emplace (m : Patterns) (key : Int) (value : MessagePattern) : Patterns :=
  match find m key with
  | some _ => m
  | none => m ++ [(key, value)]

end Patterns

/-- The state of a `MessagePatternManager` that matters after the file is
open. -/
structure MessagePatternManager where
  _patterns : Patterns
deriving DecidableEq, Repr

namespace MessagePatternManager

/-- The body of `while (getline(ifs, line))` in `Init`. -/
def InitLine (patterns : Patterns) (line : Str) : Patterns :=
  if starts_with line '#' then patterns
  else
    match MessagePattern.readFromLine line with
    | Except.error _ => patterns
    | Except.ok mp => Patterns.emplace patterns mp._msg_id mp

/-- `Init` on a definition file that could be opened: its return value and the
manager it leaves. -/
def Init (lines : List Str) : Int × MessagePatternManager :=
  (0, { _patterns := lines.foldl InitLine [] })

/-- `LocatePattern`: `none` stands for `nullptr`. -/
def LocatePattern (mpm : MessagePatternManager) (type_id : Int) : Option MessagePattern :=
  Patterns.find mpm._patterns type_id

end MessagePatternManager

/-! ## `MessageParser` -/

/-- The state of a `MessageParser`: the manager set by `set_mpm`, if any. -/
structure MessageParser where
  _mpmsptr : Option MessagePatternManager

namespace MessageParser

/-- `set_mpm`. -/
def set_mpm (_self : MessageParser) (mpm : MessagePatternManager) : MessageParser :=
  { _mpmsptr := some mpm }

/-- The loop `for (; msg_idx < mp->_msg_fields.size(); ++msg_idx)`, entered at
`msg_idx` with the declared fields from `msg_idx` on: the results of the calls
of `ProcessMessageField`, in order. `none` is reached when `1 + msg_idx` is not
an index of `msg_fields`: the access `msg_fields[1+msg_idx]` is then undefined. -/
def fieldLoop (msg_fields : List Str) : List (Str × FieldType) → Nat → Option (List (Int × Str))
  | [], _ => some []
  | f :: rest, msg_idx =>
    match msg_fields[1 + msg_idx]? with
    | none => none
    | some thefield =>
      match fieldLoop msg_fields rest (msg_idx + 1) with
      | none => none
      | some rs => some (ProcessMessageField thefield f.2 :: rs)

/-- The body of `while (getline(ifs, line))` in `Parse` for one line: the
results of the calls of `ProcessMessageField` it makes, none for a line it
skips; `none` when it reaches an access out of range. -/
def ParseLine (mpm : MessagePatternManager) (line : Str) : Option (List (Int × Str)) :=
  if starts_with line '#' then some []
  else
    match boost_split ',' line with
    | f0 :: f1 :: rest =>
      (match mpm.LocatePattern (strtod f0).toInt with
       | none => some []
       | some mp => fieldLoop (f0 :: f1 :: rest) mp._msg_fields 0)
    | _ => some []

/-- The text the calls write to `std::cout`. -/
def written (rs : List (Int × Str)) : Str := (rs.map Prod.snd).flatten

/-- The loop of `Parse` over the lines: the text written to `std::cout`. -/
def ParseLines (mpm : MessagePatternManager) : List Str → Option Str
  | [] => some []
  | line :: rest =>
    match ParseLine mpm line with
    | none => none
    | some rs =>
      match ParseLines mpm rest with
      | none => none
      | some out => some (written rs ++ out)

/-- `Parse` on a message file that could be opened: its return value and the
text written to `std::cout`; `none` when the run reaches an access out of
range. -/
def Parse (self : MessageParser) (lines : List Str) : Option (Int × Str) :=
  match self._mpmsptr with
  | none => some (-1, [])
  | some mpm =>
    match ParseLines mpm lines with
    | none => none
    | some out => some (0, out)

end MessageParser

/-! ## Notions used to state the properties -/

/-- The number a string of decimal digits writes, most significant digit
first. -/
def decimalValue (ds : Str) : Nat := Nat.ofDigits 10 (ds.reverse.map digitVal)

/-- A signed base-10 numeral: an optional sign, then one or more decimal
digits. -/
def isSignedDecimal (s : Str) : Bool :=
  match s with
  | [] => false
  | c :: cs =>
    if c = '-' ∨ c = '+' then !cs.isEmpty && cs.all isdigit else (c :: cs).all isdigit

/-- The integer a signed base-10 numeral writes. -/
def signedDecimalValue (s : Str) : Int :=
  match s with
  | [] => 0
  | c :: cs =>
    if c = '-' then -(decimalValue cs : Int)
    else if c = '+' then (decimalValue cs : Int)
    else (decimalValue (c :: cs) : Int)

/-- The longest prefix of the token that is a signed base-10 numeral, if there
is one. -/
def longestNumericPrefix (tok : Str) : Option Str :=
  tok.inits.reverse.find? isSignedDecimal

/-- The value of the longest signed base-10 numeric prefix of the token, `0`
when there is none. -/
def numericPrefixValue (tok : Str) : Int :=
  match longestNumericPrefix tok with
  | none => 0
  | some p => signedDecimalValue p

/-- The number of maximal runs of the separator in a text: the positions where
a separator is the last character or is followed by a character that is not a
separator. -/
def separatorRuns (sep : Char) : Str → Nat
  | [] => 0
  | [c] => if c = sep then 1 else 0
  | c :: d :: rest =>
    (if c = sep ∧ d ≠ sep then 1 else 0) + separatorRuns sep (d :: rest)

/-- The field name a segment gives: the text before its first `:`. -/
def nameOf (field : Str) : Str := field.takeWhile (fun c => c ≠ ':')

/-- The type name a segment gives: the text after its first `:`, the whole
segment when it has no `:`. -/
def typeNameOf (field : Str) : Str :=
  if ':' ∈ field then (field.dropWhile (fun c => c ≠ ':')).drop 1 else field

/-- The rendering of a decoded field: what `ProcessMessageField` writes for a
token and a supported type before the "," and the line end. -/
def fieldText (msg : Str) (type : FieldType) : Str :=
  match type.val with
  | 0 => showInt (ProcessMessageField.ival msg)
  | 1 => showBool (ProcessMessageField.b msg)
  | 2 => showDouble (ProcessMessageField.d msg)
  | 3 => msg
  | 4 => "parsed_ts=".toList ++ showNat (ProcessMessageField.ts msg)
  | _ => []

/-- What a definition line contributes to the catalog: the pattern read from
it, nothing for a comment line and for a line `readFromLine` rejects. -/
def accepted (line : Str) : Option MessagePattern :=
  if starts_with line '#' then none
  else
    match MessagePattern.readFromLine line with
    | Except.error _ => none
    | Except.ok mp => some mp

/-! ## Properties -/

/-! ### The registry -/

theorem type_from_name_find_of_mem (name : Str) (t : FieldType)
    (h : (name, t) ∈ type_from_name) : type_from_name_find name = some t := by
  simp only [type_from_name, List.mem_cons, Prod.mk.injEq, List.mem_singleton,
    List.not_mem_nil] at h
  rcases h with ⟨rfl, rfl⟩ | ⟨rfl, rfl⟩ | ⟨rfl, rfl⟩ | ⟨rfl, rfl⟩ | ⟨rfl, rfl⟩ | h
  · decide
  · decide
  · decide
  · decide
  · decide
  · exact absurd h id

theorem type_from_name_find_eq_some_iff (name : Str) (t : FieldType) :
    type_from_name_find name = some t ↔ (name, t) ∈ type_from_name := by
  constructor
  · intro h
    unfold type_from_name_find at h
    split at h
    · exact absurd h (by simp)
    · rename_i e he
      have hm := List.mem_of_find?_eq_some he
      have hp := List.find?_some he
      simp only [decide_eq_true_eq] at hp
      rw [← Option.some.inj h, ← hp]
      exact hm
  · exact type_from_name_find_of_mem name t

theorem type_from_name_find_eq_none_iff (name : Str) :
    type_from_name_find name = none ↔ ∀ e ∈ type_from_name, e.1 ≠ name := by
  constructor
  · intro h e he heq
    have := type_from_name_find_of_mem e.1 e.2 he
    rw [heq, h] at this
    exact absurd this (by simp)
  · intro h
    have : type_from_name.find? (fun e => decide (e.1 = name)) = none := by
      rw [List.find?_eq_none]
      intro e he
      simpa using h e he
    simp [type_from_name_find, this]

/-- C6. The registry `type_from_name` resolves a name exactly when the name is
one of "int", "bool", "double", "string", "ts", and maps these to `TYPE_INT`,
`TYPE_BOOL`, `TYPE_DOUBLE`, `TYPE_STRING`, `TYPE_TIMESTAMP` in this order; every
other string is not found, among them a name in another letter case or with
white space around it. -/
theorem type_from_name_closed :
    (∀ (name : Str) (t : FieldType), type_from_name_find name = some t ↔
        ((name = "int".toList ∧ t = FieldType.TYPE_INT) ∨
         (name = "bool".toList ∧ t = FieldType.TYPE_BOOL) ∨
         (name = "double".toList ∧ t = FieldType.TYPE_DOUBLE) ∨
         (name = "string".toList ∧ t = FieldType.TYPE_STRING) ∨
         (name = "ts".toList ∧ t = FieldType.TYPE_TIMESTAMP))) ∧
    (∀ name : Str, type_from_name_find name = none ↔
        name ∉ ["int".toList, "bool".toList, "double".toList, "string".toList,
                "ts".toList]) ∧
    type_from_name_find "Int".toList = none ∧
    type_from_name_find "INT".toList = none ∧
    type_from_name_find " int".toList = none ∧
    type_from_name_find "int ".toList = none ∧
    type_from_name_find "".toList = none := by
  refine ⟨?_, ?_, by decide, by decide, by decide, by decide, by decide⟩
  · intro name t
    rw [type_from_name_find_eq_some_iff]
    simp [type_from_name]
  · intro name
    rw [type_from_name_find_eq_none_iff]
    simp [type_from_name, eq_comm]

/-! ### Numeric parsing -/

theorem isspace_of_isdigit {c : Char} (h : isdigit c = true) : isspace c = false := by
  simp only [isdigit, Bool.and_eq_true, decide_eq_true_eq] at h
  simp only [isspace, Bool.or_eq_false_iff, decide_eq_false_iff_not, Bool.and_eq_false_iff]
  omega

theorem ne_minus_of_isdigit {c : Char} (h : isdigit c = true) : c ≠ '-' := by
  intro hc
  rw [hc] at h
  exact absurd h (by decide)

theorem ne_plus_of_isdigit {c : Char} (h : isdigit c = true) : c ≠ '+' := by
  intro hc
  rw [hc] at h
  exact absurd h (by decide)

theorem decimalValue_nil : decimalValue [] = 0 := rfl

theorem decimalValue_cons (c : Char) (cs : Str) :
    decimalValue (c :: cs) = digitVal c * 10 ^ cs.length + decimalValue cs := by
  simp [decimalValue, Nat.ofDigits_append, Nat.ofDigits_singleton]
  ring

theorem digitsValue_eq (s : Str) : ∀ acc : Nat,
    digitsValue acc s =
      acc * 10 ^ (s.takeWhile isdigit).length + decimalValue (s.takeWhile isdigit) := by
  induction s with
  | nil => intro acc; simp [digitsValue, decimalValue_nil]
  | cons c cs ih =>
    intro acc
    by_cases hc : isdigit c = true
    · simp only [digitsValue, hc, if_true, List.takeWhile_cons, List.length_cons]
      rw [ih, decimalValue_cons]
      ring
    · simp [digitsValue, hc, List.takeWhile_cons, decimalValue_nil]

theorem takeWhile_isdigit_of_all {s : Str} (h : ∀ c ∈ s, isdigit c = true) :
    s.takeWhile isdigit = s := by
  rw [List.takeWhile_eq_self_iff]
  exact h

theorem skipSpace_of_not_isspace {c : Char} (cs : Str) (h : isspace c = false) :
    skipSpace (c :: cs) = c :: cs := by
  simp [skipSpace, h]

theorem strtoull_of_digits (tok : Str) (hd : ∀ c ∈ tok, isdigit c = true)
    (hv : decimalValue tok < 2 ^ 64) : strtoull tok = decimalValue tok := by
  cases tok with
  | nil => rfl
  | cons c cs =>
    have hc : isdigit c = true := hd c (List.mem_cons_self c cs)
    have hval : digitsValue 0 (c :: cs) = decimalValue (c :: cs) := by
      rw [digitsValue_eq, takeWhile_isdigit_of_all hd]; simp
    unfold strtoull
    rw [skipSpace_of_not_isspace cs (isspace_of_isdigit hc)]
    simp only [ne_minus_of_isdigit hc, ne_plus_of_isdigit hc, if_false]
    rw [hval]
    apply Nat.min_eq_right
    unfold ULLONG_MAX
    omega

theorem inits_reverse_cons (a : Char) (l : Str) :
    (a :: l).inits.reverse = (l.inits.reverse.map (fun q => a :: q)) ++ [[]] := by
  simp [List.inits, List.map_reverse]

theorem find_allDigits (l : Str) :
    l.inits.reverse.find? (fun q => q.all isdigit) = some (l.takeWhile isdigit) := by
  induction l with
  | nil => simp
  | cons b l ih =>
    rw [inits_reverse_cons, List.find?_append, List.find?_map]
    by_cases hb : isdigit b = true
    · have : ((fun q : Str => q.all isdigit) ∘ fun q => b :: q) = fun q => q.all isdigit := by
        funext q; simp [hb]
      rw [this, ih]
      simp [List.takeWhile_cons, hb]
    · have : ((fun q : Str => q.all isdigit) ∘ fun q => b :: q) = fun _ => false := by
        funext q; simp [hb]
      rw [this]
      simp [List.takeWhile_cons, hb]

theorem find_nonemptyDigits (l : Str) :
    l.inits.reverse.find? (fun q => !q.isEmpty && q.all isdigit) =
      if l.takeWhile isdigit = [] then none else some (l.takeWhile isdigit) := by
  cases l with
  | nil => simp
  | cons b l =>
    rw [inits_reverse_cons, List.find?_append, List.find?_map]
    by_cases hb : isdigit b = true
    · have : ((fun q : Str => !q.isEmpty && q.all isdigit) ∘ fun q => b :: q)
          = fun q => q.all isdigit := by
        funext q; simp [hb]
      rw [this, find_allDigits]
      simp [List.takeWhile_cons, hb]
    · have : ((fun q : Str => !q.isEmpty && q.all isdigit) ∘ fun q => b :: q)
          = fun _ => false := by
        funext q; simp [hb]
      rw [this]
      simp [List.takeWhile_cons, hb]

/-- The value `strtol` reads before clamping. -/
theorem numericPrefixValue_eq (s : Str) :
    numericPrefixValue s =
      match s with
      | [] => 0
      | c :: cs =>
        if c = '-' then -(digitsValue 0 cs : Int)
        else if c = '+' then (digitsValue 0 cs : Int)
        else (digitsValue 0 (c :: cs) : Int) := by
  cases s with
  | nil => rfl
  | cons c cs =>
    unfold numericPrefixValue longestNumericPrefix
    rw [inits_reverse_cons, List.find?_append, List.find?_map]
    by_cases hs : c = '-' ∨ c = '+'
    · have : (isSignedDecimal ∘ fun q => c :: q) = fun q => !q.isEmpty && q.all isdigit := by
        funext q; simp [isSignedDecimal, hs]
      rw [this, find_nonemptyDigits]
      have hv := digitsValue_eq cs 0
      by_cases he : cs.takeWhile isdigit = []
      · rw [he] at hv
        simp only [he, if_true]
        rcases hs with rfl | rfl <;> simp [isSignedDecimal, hv, decimalValue_nil]
      · simp only [he, if_false]
        rcases hs with rfl | rfl <;> simp [signedDecimalValue, hv]
    · have hm : c ≠ '-' := fun h => hs (Or.inl h)
      have hp : c ≠ '+' := fun h => hs (Or.inr h)
      simp only [hm, hp, if_false]
      by_cases hc : isdigit c = true
      · have : (isSignedDecimal ∘ fun q => c :: q) = fun q => q.all isdigit := by
          funext q; simp [isSignedDecimal, hs, hc]
        rw [this, find_allDigits]
        have hv := digitsValue_eq (c :: cs) 0
        simp only [List.takeWhile_cons, hc, if_true] at hv
        simp [signedDecimalValue, hm, hp, hv]
      · have : (isSignedDecimal ∘ fun q => c :: q) = fun _ => false := by
          funext q; simp [isSignedDecimal, hs, hc]
        have hnone : List.find? (fun _ : Str => false) cs.inits.reverse = none := by
          rw [List.find?_eq_none]; intro x _; simp
        rw [this, hnone]
        simp [isSignedDecimal, digitsValue, hc]


theorem toInt32_of_fits {v : Int} (h1 : INT_MIN ≤ v) (h2 : v ≤ INT_MAX) : toInt32 v = v := by
  unfold INT_MIN at h1
  unfold INT_MAX at h2
  unfold toInt32
  omega

theorem atol_of_fits (tok : Str)
    (h1 : INT_MIN ≤ numericPrefixValue (skipSpace tok))
    (h2 : numericPrefixValue (skipSpace tok) ≤ INT_MAX) :
    atol tok = numericPrefixValue (skipSpace tok) := by
  rw [numericPrefixValue_eq] at h1 h2 ⊢
  unfold atol strtol10
  unfold INT_MIN at h1
  unfold INT_MAX at h2
  unfold LONG_MIN LONG_MAX
  cases hsk : skipSpace tok with
  | nil => rfl
  | cons c cs =>
    rw [hsk] at h1 h2
    simp only at h1 h2 ⊢
    split_ifs at h1 h2 ⊢
    · rw [max_eq_right]; omega
    · rw [min_eq_right]; omega
    · rw [min_eq_right]; omega

theorem inits_reverse_head (l : Str) : ∃ rest, l.inits.reverse = l :: rest := by
  induction l with
  | nil => exact ⟨[], rfl⟩
  | cons a l ih =>
    obtain ⟨rest, h⟩ := ih
    exact ⟨rest.map (fun q => a :: q) ++ [[]], by rw [inits_reverse_cons, h]; rfl⟩

theorem numericPrefixValue_of_isSignedDecimal {tok : Str} (h : isSignedDecimal tok = true) :
    numericPrefixValue tok = signedDecimalValue tok := by
  obtain ⟨rest, hr⟩ := inits_reverse_head tok
  simp [numericPrefixValue, longestNumericPrefix, hr, List.find?, h]

theorem skipSpace_of_isSignedDecimal {tok : Str} (h : isSignedDecimal tok = true) :
    skipSpace tok = tok := by
  cases tok with
  | nil => rfl
  | cons c cs =>
    apply skipSpace_of_not_isspace
    by_cases hs : c = '-' ∨ c = '+'
    · rcases hs with rfl | rfl <;> decide
    · simp only [isSignedDecimal, hs, if_false, List.all_cons, Bool.and_eq_true] at h
      exact isspace_of_isdigit h.1

theorem processInt_eq (msg : Str) :
    ProcessMessageField msg FieldType.TYPE_INT =
      (0, showInt (ProcessMessageField.ival msg) ++ [',', '\n']) := by
  simp [ProcessMessageField, FieldType.TYPE_INT, endl]

theorem processBool_eq (msg : Str) :
    ProcessMessageField msg FieldType.TYPE_BOOL =
      (0, showBool (ProcessMessageField.b msg) ++ [',', '\n']) := by
  simp [ProcessMessageField, FieldType.TYPE_BOOL, endl]

theorem processTimestamp_eq (msg : Str) :
    ProcessMessageField msg FieldType.TYPE_TIMESTAMP =
      (0, "parsed_ts=".toList ++ showNat (ProcessMessageField.ts msg) ++ [',', '\n']) := by
  simp [ProcessMessageField, FieldType.TYPE_TIMESTAMP, endl]

/-! ### Integer fields -/

/-- C7, as stated, fails: the token "2147483648" is a well-formed base-10
integer that fits in 64 bits, `atol` reads it in full, and the value kept in
`int ival` and printed is `-2147483648`. -/
theorem integer_2147483648_is_narrowed :
    isSignedDecimal "2147483648".toList = true ∧
    signedDecimalValue "2147483648".toList = 2147483648 ∧
    LONG_MIN ≤ signedDecimalValue "2147483648".toList ∧
    signedDecimalValue "2147483648".toList ≤ LONG_MAX ∧
    atol "2147483648".toList = 2147483648 ∧
    ProcessMessageField.ival "2147483648".toList = -2147483648 ∧
    ProcessMessageField "2147483648".toList FieldType.TYPE_INT
      = (0, "-2147483648,\n".toList) := by
  decide

/-- C7, amended. For every token that is a well-formed signed base-10 integer
(an optional sign, then one or more digits) whose value fits in `int`, which has
32 bits, decoding it with type Integer yields exactly that value: it is the
value of `ival`, and its decimal form followed by "," and a line end is what is
written. -/
theorem integer_decodes_wellformed (tok : Str)
    (hw : isSignedDecimal tok = true)
    (hlo : INT_MIN ≤ signedDecimalValue tok) (hhi : signedDecimalValue tok ≤ INT_MAX) :
    ProcessMessageField.ival tok = signedDecimalValue tok ∧
    ProcessMessageField tok FieldType.TYPE_INT
      = (0, showInt (signedDecimalValue tok) ++ [',', '\n']) := by
  have hv : ProcessMessageField.ival tok = signedDecimalValue tok := by
    have hs := skipSpace_of_isSignedDecimal hw
    have hp := numericPrefixValue_of_isSignedDecimal hw
    unfold ProcessMessageField.ival
    rw [atol_of_fits tok (by rw [hs, hp]; exact hlo) (by rw [hs, hp]; exact hhi), hs, hp]
    exact toInt32_of_fits hlo hhi
  exact ⟨hv, by rw [processInt_eq, hv]⟩

/-- The token "42" decodes to 42. -/
theorem integer_decodes_wellformed_witness :
    isSignedDecimal "42".toList = true ∧
    INT_MIN ≤ signedDecimalValue "42".toList ∧
    signedDecimalValue "42".toList ≤ INT_MAX ∧
    signedDecimalValue "42".toList = 42 ∧
    ProcessMessageField.ival "42".toList = signedDecimalValue "42".toList ∧
    ProcessMessageField "42".toList FieldType.TYPE_INT
      = (0, showInt (signedDecimalValue "42".toList) ++ [',', '\n']) :=
  ⟨by decide, by decide, by decide, by decide,
    integer_decodes_wellformed "42".toList (by decide) (by decide) (by decide)⟩

/-- C8, as stated, fails. The token " 42" has no prefix that is a signed base-10
numeral, and it decodes to 42 because `atol` skips the leading white space; the
token "2147483648" is its own numeric prefix and decodes to `-2147483648`. -/
theorem integer_prefix_value_fails :
    (longestNumericPrefix " 42".toList = none ∧
     numericPrefixValue " 42".toList = 0 ∧
     ProcessMessageField.ival " 42".toList = 42 ∧
     ProcessMessageField " 42".toList FieldType.TYPE_INT = (0, "42,\n".toList)) ∧
    (longestNumericPrefix "2147483648".toList = some "2147483648".toList ∧
     numericPrefixValue "2147483648".toList = 2147483648 ∧
     ProcessMessageField.ival "2147483648".toList = -2147483648) := by
  decide

/-- C8, amended. For every token, decoding with type Integer yields the value of
the longest signed base-10 numeric prefix of what follows the token's leading
white space, provided that value fits in `int` (32 bits); it yields 0 when there
is no such prefix. -/
theorem integer_decodes_prefix_value (tok : Str)
    (hlo : INT_MIN ≤ numericPrefixValue (skipSpace tok))
    (hhi : numericPrefixValue (skipSpace tok) ≤ INT_MAX) :
    ProcessMessageField.ival tok = numericPrefixValue (skipSpace tok) ∧
    ProcessMessageField tok FieldType.TYPE_INT
      = (0, showInt (numericPrefixValue (skipSpace tok)) ++ [',', '\n']) ∧
    (longestNumericPrefix (skipSpace tok) = none → ProcessMessageField.ival tok = 0) := by
  have hv : ProcessMessageField.ival tok = numericPrefixValue (skipSpace tok) := by
    unfold ProcessMessageField.ival
    rw [atol_of_fits tok hlo hhi]
    exact toInt32_of_fits hlo hhi
  refine ⟨hv, by rw [processInt_eq, hv], ?_⟩
  intro hnone
  rw [hv]
  simp [numericPrefixValue, hnone]

/-- The token "abc" decodes to 0, the token " -12x" to -12. -/
theorem integer_decodes_prefix_value_witness :
    (INT_MIN ≤ numericPrefixValue (skipSpace "abc".toList) ∧
     numericPrefixValue (skipSpace "abc".toList) ≤ INT_MAX ∧
     longestNumericPrefix (skipSpace "abc".toList) = none ∧
     ProcessMessageField.ival "abc".toList = 0 ∧
     ProcessMessageField "abc".toList FieldType.TYPE_INT = (0, "0,\n".toList)) ∧
    (numericPrefixValue (skipSpace " -12x".toList) = -12 ∧
     ProcessMessageField.ival " -12x".toList = numericPrefixValue (skipSpace " -12x".toList)) :=
  ⟨⟨by decide, by decide, by decide,
      (integer_decodes_prefix_value "abc".toList (by decide) (by decide)).2.2 (by decide),
      (integer_decodes_prefix_value "abc".toList (by decide) (by decide)).2.1⟩,
    by decide,
    (integer_decodes_prefix_value " -12x".toList (by decide) (by decide)).1⟩

/-! ### Boolean fields -/

/-- C9, as stated, fails: for the token "4294967296" the Boolean decoding is
`true` and the Integer decoding of the same token is 0. -/
theorem boolean_true_integer_zero :
    atol "4294967296".toList = 4294967296 ∧
    ProcessMessageField.b "4294967296".toList = true ∧
    ProcessMessageField.ival "4294967296".toList = 0 ∧
    ProcessMessageField "4294967296".toList FieldType.TYPE_BOOL = (0, "true,\n".toList) ∧
    ProcessMessageField "4294967296".toList FieldType.TYPE_INT = (0, "0,\n".toList) := by
  decide

theorem toInt32_eq_zero_iff (v : Int) : toInt32 v = 0 ↔ v % 2 ^ 32 = 0 := by
  unfold toInt32
  omega

/-- C9, amended. For every token whose permissive integer parse (`atol`) is zero
or is not a multiple of 2^32, decoding with type Boolean yields true exactly
when decoding the same token with type Integer yields a nonzero value, and false
exactly when the Integer decoding is zero; what is written is "true" or "false"
accordingly. For the other tokens, whose parse is a nonzero multiple of 2^32,
Boolean yields true and the Integer decoding is 0. Boolean tests the parsed
`long` itself, Integer keeps it in an `int`. -/
theorem boolean_iff_integer_nonzero (tok : Str) :
    ((atol tok % 2 ^ 32 = 0 → atol tok = 0) →
      (ProcessMessageField.b tok = true ↔ ProcessMessageField.ival tok ≠ 0) ∧
      (ProcessMessageField.b tok = false ↔ ProcessMessageField.ival tok = 0) ∧
      ProcessMessageField tok FieldType.TYPE_BOOL
        = (0, (if ProcessMessageField.ival tok ≠ 0 then "true".toList else "false".toList)
                ++ [',', '\n'])) ∧
    ((atol tok ≠ 0 ∧ atol tok % 2 ^ 32 = 0) →
      ProcessMessageField.b tok = true ∧ ProcessMessageField.ival tok = 0) := by
  have hb : ProcessMessageField.b tok = decide (atol tok ≠ 0) := rfl
  have hz : ProcessMessageField.ival tok = 0 ↔ atol tok % 2 ^ 32 = 0 :=
    toInt32_eq_zero_iff (atol tok)
  constructor
  · intro h
    have hiff : ProcessMessageField.ival tok = 0 ↔ atol tok = 0 := by
      rw [hz]
      constructor
      · exact h
      · intro h0; rw [h0]; norm_num
    refine ⟨?_, ?_, ?_⟩
    · rw [hb]
      simp only [ne_eq, decide_eq_true_eq]
      exact not_congr hiff.symm
    · rw [hb]
      simp only [ne_eq, decide_eq_false_iff_not, not_not]
      exact hiff.symm
    · rw [processBool_eq, hb]
      by_cases h0 : atol tok = 0
      · have : ProcessMessageField.ival tok = 0 := hiff.2 h0
        simp [showBool, h0, this]
      · have : ¬ ProcessMessageField.ival tok = 0 := fun e => h0 (hiff.1 e)
        simp [showBool, h0, this]
  · rintro ⟨h0, hm⟩
    exact ⟨by rw [hb]; simp [h0], hz.2 hm⟩

/-- The token "1" decodes to true; the token "2147483648", whose parse does not
fit in `int`, decodes to true and its Integer decoding is nonzero. -/
theorem boolean_iff_integer_nonzero_witness :
    (atol "1".toList % 2 ^ 32 = 0 → atol "1".toList = 0) ∧
    ProcessMessageField.ival "1".toList ≠ 0 ∧
    ProcessMessageField.b "1".toList = true ∧
    ProcessMessageField "1".toList FieldType.TYPE_BOOL
      = (0, (if ProcessMessageField.ival "1".toList ≠ 0 then "true".toList else "false".toList)
              ++ [',', '\n']) ∧
    (atol "2147483648".toList % 2 ^ 32 = 0 → atol "2147483648".toList = 0) ∧
    ProcessMessageField.ival "2147483648".toList ≠ 0 ∧
    ProcessMessageField.b "2147483648".toList = true ∧
    (atol "4294967296".toList ≠ 0 ∧ atol "4294967296".toList % 2 ^ 32 = 0) ∧
    (ProcessMessageField.b "4294967296".toList = true ∧
      ProcessMessageField.ival "4294967296".toList = 0) :=
  ⟨by decide, by decide,
    ((boolean_iff_integer_nonzero "1".toList).1 (by decide)).1.mpr (by decide),
    ((boolean_iff_integer_nonzero "1".toList).1 (by decide)).2.2,
    by decide, by decide,
    ((boolean_iff_integer_nonzero "2147483648".toList).1 (by decide)).1.mpr (by decide),
    by decide,
    (boolean_iff_integer_nonzero "4294967296".toList).2 (by decide)⟩

/-! ### Timestamp fields -/

/-- C10. For every token that consists of decimal digits only and whose value
fits in an unsigned 64-bit integer, decoding with type Timestamp yields exactly
that value, written in base 10 after the literal prefix "parsed_ts=". -/
theorem timestamp_decodes_digits (tok : Str)
    (hd : ∀ c ∈ tok, isdigit c = true) (hv : decimalValue tok < 2 ^ 64) :
    ProcessMessageField.ts tok = decimalValue tok ∧
    ProcessMessageField tok FieldType.TYPE_TIMESTAMP
      = (0, "parsed_ts=".toList ++ Nat.toDigits 10 (decimalValue tok) ++ [',', '\n']) := by
  have h : ProcessMessageField.ts tok = decimalValue tok := strtoull_of_digits tok hd hv
  exact ⟨h, by rw [processTimestamp_eq, h]; rfl⟩

/-- The token "1700000000" decodes to 1700000000. -/
theorem timestamp_decodes_digits_witness :
    (∀ c ∈ "1700000000".toList, isdigit c = true) ∧
    decimalValue "1700000000".toList < 2 ^ 64 ∧
    decimalValue "1700000000".toList = 1700000000 ∧
    ProcessMessageField.ts "1700000000".toList = decimalValue "1700000000".toList ∧
    ProcessMessageField "1700000000".toList FieldType.TYPE_TIMESTAMP
      = (0, "parsed_ts=".toList ++ Nat.toDigits 10 (decimalValue "1700000000".toList)
              ++ [',', '\n']) :=
  ⟨by decide, by decide, by decide,
    timestamp_decodes_digits "1700000000".toList (by decide) (by decide)⟩

/-! ### Splitting -/

theorem splitAux_cons_sep (p : Char → Bool) (flag : Bool) (c : Char) (cs : Str)
    (h : p c = true) :
    splitAux p flag (c :: cs) =
      if flag then splitAux p true cs else [] :: splitAux p true cs := by
  rw [splitAux]; simp [h]

theorem splitAux_cons_other (p : Char → Bool) (flag : Bool) (c : Char) (cs : Str)
    (h : p c = false) :
    splitAux p flag (c :: cs) =
      match splitAux p false cs with
      | [] => [[c]]
      | t :: ts => (c :: t) :: ts := by
  rw [splitAux]; simp [h]

theorem splitAux_ne_nil (p : Char → Bool) (s : Str) : ∀ flag, splitAux p flag s ≠ [] := by
  induction s with
  | nil => intro flag; simp [splitAux]
  | cons c cs ih =>
    intro flag
    unfold splitAux
    by_cases hc : p c = true
    · cases flag <;> simp [hc, ih]
    · simp only [hc]
      cases h : splitAux p false cs <;> simp

theorem splitAux_length (sep : Char) (s : Str) :
    (splitAux (fun c => c = sep) false s).length = separatorRuns sep s + 1 ∧
    (splitAux (fun c => c = sep) true s).length =
      separatorRuns sep s + (if s.head? = some sep then 0 else 1) := by
  induction s with
  | nil => simp [splitAux, separatorRuns]
  | cons c cs ih =>
    have hlen : ∀ flag, c ≠ sep →
        (splitAux (fun c => c = sep) flag (c :: cs)).length
          = (splitAux (fun c => c = sep) false cs).length := by
      intro flag hc
      rw [splitAux_cons_other _ _ _ _ (by simpa using hc)]
      cases h : splitAux (fun c => decide (c = sep)) false cs with
      | nil => exact absurd h (splitAux_ne_nil _ _ _)
      | cons t ts => simp
    by_cases hc : c = sep
    · subst hc
      cases cs with
      | nil => simp [splitAux, separatorRuns]
      | cons d r =>
        by_cases hd : d = c
        · subst hd
          have := ih.2
          simp only [List.head?_cons, if_true] at this
          simp [splitAux, separatorRuns, this]
          simp [splitAux] at this
          omega
        · have := ih.2
          have hd' : ¬ (some d = some c) := by simpa using hd
          simp only [List.head?_cons, hd', if_false] at this
          simp [splitAux, separatorRuns, hd]
          simp [splitAux, hd] at this
          omega
    · have hr : separatorRuns sep (c :: cs) = separatorRuns sep cs := by
        cases cs with
        | nil => simp [separatorRuns, hc]
        | cons d r => simp [separatorRuns, hc]
      have hh : ¬ ((c :: cs).head? = some sep) := by simpa using hc
      rw [hlen false hc, hlen true hc, hr, ih.1]
      simp [hc]

theorem boost_split_length (sep : Char) (s : Str) :
    (boost_split sep s).length = separatorRuns sep s + 1 :=
  (splitAux_length sep s).1

theorem splitAux_token_length (p : Char → Bool) (s : Str) :
    ∀ flag, ∀ t ∈ splitAux p flag s, t.length ≤ s.length := by
  induction s with
  | nil => intro flag t ht; simp [splitAux] at ht; simp [ht]
  | cons c cs ih =>
    intro flag t ht
    unfold splitAux at ht
    by_cases hc : p c = true
    · simp only [hc, if_true] at ht
      cases flag
      · simp only [Bool.false_eq_true, if_false, List.mem_cons] at ht
        rcases ht with rfl | ht
        · simp
        · have := ih true t ht; simp; omega
      · simp only [if_true] at ht
        have := ih true t ht; simp; omega
    · simp only [hc] at ht
      cases h : splitAux p false cs with
      | nil => exact absurd h (splitAux_ne_nil _ _ _)
      | cons u us =>
        rw [h] at ht
        simp only [Bool.false_eq_true, if_false, List.mem_cons] at ht
        rcases ht with rfl | ht
        · have := ih false u (by rw [h]; exact List.mem_cons_self _ _)
          simp; omega
        · have := ih false t (by rw [h]; exact List.mem_cons_of_mem _ ht)
          simp; omega

theorem splitAux_no_sep (p : Char → Bool) (s : Str) (h : ∀ c ∈ s, p c = false) :
    ∀ flag, splitAux p flag s = [s] := by
  induction s with
  | nil => intro flag; simp [splitAux]
  | cons c cs ih =>
    intro flag
    rw [splitAux_cons_other p flag c cs (h c (List.mem_cons_self _ _)),
      ih (fun x hx => h x (List.mem_cons_of_mem _ hx)) false]

theorem splitAux_append_sep (p : Char → Bool) (a : Str) (sep : Char) (rest : Str)
    (ha : ∀ c ∈ a, p c = false) (hsep : p sep = true) :
    ∀ flag, (a ≠ [] ∨ flag = false) →
      splitAux p flag (a ++ sep :: rest) = a :: splitAux p true rest := by
  induction a with
  | nil =>
    intro flag hf
    rcases hf with hf | hf
    · exact absurd rfl hf
    · subst hf
      rw [List.nil_append, splitAux_cons_sep p false sep rest hsep]
      rfl
  | cons c cs ih =>
    intro flag _
    rw [List.cons_append, splitAux_cons_other p flag c _ (ha c (List.mem_cons_self _ _)),
      ih (fun x hx => ha x (List.mem_cons_of_mem _ hx)) false (Or.inr rfl)]

/-- The segments of a line written as non-empty pieces joined by the separator,
after a first piece that may be empty: the pieces themselves. -/
theorem boost_split_joined (sep : Char) (first : Str) (pieces : List Str)
    (hfirst : sep ∉ first) (hpieces : ∀ s ∈ pieces, sep ∉ s ∧ s ≠ []) :
    boost_split sep (first ++ pieces.flatMap (fun s => sep :: s)) = first :: pieces := by
  have hp : ∀ s : Str, sep ∉ s → ∀ c ∈ s, (fun c => decide (c = sep)) c = false := by
    intro s hs c hc
    simp only [decide_eq_false_iff_not]
    intro h; subst h; exact hs hc
  have key : ∀ (pieces : List Str) (a : Str) (flag : Bool), sep ∉ a →
      (a ≠ [] ∨ flag = false) → (∀ s ∈ pieces, sep ∉ s ∧ s ≠ []) →
      splitAux (fun c => decide (c = sep)) flag (a ++ pieces.flatMap (fun s => sep :: s))
        = a :: pieces := by
    intro pieces
    induction pieces with
    | nil =>
      intro a flag ha _ _
      simp only [List.flatMap_nil, List.append_nil]
      exact splitAux_no_sep _ a (hp a ha) flag
    | cons s rest ih =>
      intro a flag ha hf hs
      have h1 := hs s (List.mem_cons_self _ _)
      simp only [List.flatMap_cons, List.cons_append]
      rw [splitAux_append_sep _ a sep _ (hp a ha) (by simp) flag hf,
        ih s true h1.1 (Or.inl h1.2) (fun x hx => hs x (List.mem_cons_of_mem _ hx))]
  exact key pieces first false hfirst (Or.inr rfl) hpieces

/-! ### The loop over the field segments -/

theorem findFrom_eq (c : Char) (s : Str) : ∀ i : Nat,
    findFrom c s i =
      if c ∈ s then i + (s.takeWhile (fun x => x ≠ c)).length else npos := by
  induction s with
  | nil => intro i; simp [findFrom]
  | cons x xs ih =>
    intro i
    by_cases hx : x = c
    · subst hx; simp [findFrom]
    · have hx' : c ≠ x := fun h => hx h.symm
      simp only [findFrom, hx, if_false, ih, List.mem_cons, hx', false_or]
      by_cases hm : c ∈ xs
      · simp [hm, hx, List.takeWhile_cons]; omega
      · simp [hm]

theorem find_colon (field : Str) :
    find field ':' = if ':' ∈ field then (nameOf field).length else npos := by
  unfold find nameOf
  rw [findFrom_eq]
  simp

theorem nameOf_length_lt {field : Str} (h : ':' ∈ field) :
    (nameOf field).length < field.length := by
  unfold nameOf
  induction field with
  | nil => simp at h
  | cons x xs ih =>
    by_cases hx : x = ':'
    · subst hx; simp
    · have : ':' ∈ xs := by
        rcases List.mem_cons.1 h with h | h
        · exact absurd h.symm hx
        · exact h
      have h2 := ih this
      simp only [List.takeWhile_cons, ne_eq, hx, not_false_eq_true, decide_True, if_true,
        List.length_cons]
      simp only [ne_eq] at h2
      omega

theorem nameOf_of_not_mem {field : Str} (h : ':' ∉ field) : nameOf field = field := by
  unfold nameOf
  rw [List.takeWhile_eq_self_iff]
  intro c hc
  simp only [ne_eq, decide_eq_true_eq]
  intro h'; subst h'; exact h hc

theorem drop_nameOf_length (field : Str) :
    field.drop (nameOf field).length = field.dropWhile (fun c => c ≠ ':') := by
  unfold nameOf
  induction field with
  | nil => rfl
  | cons x xs ih =>
    by_cases hx : x = ':'
    · simp [List.takeWhile_cons, List.dropWhile_cons, hx]
    · simpa [List.takeWhile_cons, List.dropWhile_cons, hx] using ih

theorem take_nameOf_length (field : Str) :
    field.take (nameOf field).length = nameOf field := by
  unfold nameOf
  induction field with
  | nil => rfl
  | cons x xs ih =>
    by_cases hx : x = ':'
    · simp [List.takeWhile_cons, hx]
    · simpa [List.takeWhile_cons, hx] using ih

/-- The two substrings the loop body takes are the text before the first `:`
and the text after it, and both are the whole segment when it has no `:`. -/
theorem readField_eq (field : Str) (hlen : field.length < npos) :
    MessagePattern.readField field =
      match type_from_name_find (typeNameOf field) with
      | none => none
      | some t => some (nameOf field, t) := by
  unfold npos at hlen
  have hname : substr field 0 (find field ':') = nameOf field := by
    rw [find_colon]
    by_cases hm : ':' ∈ field
    · simp only [hm, if_true, substr, List.drop_zero]
      exact take_nameOf_length field
    · simp only [hm, if_false, substr, List.drop_zero, nameOf_of_not_mem hm]
      apply List.take_of_length_le
      unfold npos; omega
  have htype : substr field ((find field ':' + 1) % 2 ^ 64)
      ((field.length + 2 ^ 64 - find field ':') % 2 ^ 64) = typeNameOf field := by
    rw [find_colon]
    by_cases hm : ':' ∈ field
    · have hlt := nameOf_length_lt hm
      simp only [hm, if_true, substr, typeNameOf]
      have h1 : ((nameOf field).length + 1) % 2 ^ 64 = (nameOf field).length + 1 :=
        Nat.mod_eq_of_lt (by omega)
      have h2 : (field.length + 2 ^ 64 - (nameOf field).length) % 2 ^ 64
          = field.length - (nameOf field).length := by
        have : field.length + 2 ^ 64 - (nameOf field).length
            = (field.length - (nameOf field).length) + 2 ^ 64 := by omega
        rw [this, Nat.add_mod_right]
        exact Nat.mod_eq_of_lt (by omega)
      rw [h1, h2, ← List.drop_drop, drop_nameOf_length]
      apply List.take_of_length_le
      rw [← drop_nameOf_length]
      simp only [List.length_drop]
      omega
    · simp only [hm, if_false, substr, typeNameOf]
      have h1 : (npos + 1) % 2 ^ 64 = 0 := by unfold npos; norm_num
      have h2 : (field.length + 2 ^ 64 - npos) % 2 ^ 64 = field.length + 1 := by
        unfold npos
        have : field.length + 2 ^ 64 - (2 ^ 64 - 1) = field.length + 1 := by omega
        rw [this]
        exact Nat.mod_eq_of_lt (by omega)
      rw [h1, h2, List.drop_zero]
      apply List.take_of_length_le
      omega
  unfold MessagePattern.readField
  rw [hname, htype]

theorem nameOf_append_colon (n t : Str) (h : ':' ∉ n) : nameOf (n ++ ':' :: t) = n := by
  unfold nameOf
  induction n with
  | nil => simp
  | cons x xs ih =>
    have hx : x ≠ ':' := fun e => h (by simp [e])
    have hxs : ':' ∉ xs := fun e => h (List.mem_cons_of_mem _ e)
    simp [List.takeWhile_cons, hx]
    simpa using ih hxs

theorem typeNameOf_append_colon (n t : Str) (h : ':' ∉ n) : typeNameOf (n ++ ':' :: t) = t := by
  unfold typeNameOf
  have hm : ':' ∈ n ++ ':' :: t := by simp
  simp only [hm, if_true]
  induction n with
  | nil => simp
  | cons x xs ih =>
    have hx : x ≠ ':' := fun e => h (by simp [e])
    have hxs : ':' ∉ xs := fun e => h (List.mem_cons_of_mem _ e)
    simp [List.dropWhile_cons, hx]
    simpa using ih hxs (by simp)

namespace MessagePattern

theorem readFields_eq_none (segs : List Str) (hlen : ∀ seg ∈ segs, seg.length < npos)
    (h : ∃ seg ∈ segs, type_from_name_find (typeNameOf seg) = none) :
    readFields segs = none := by
  induction segs with
  | nil => obtain ⟨seg, hm, -⟩ := h; simp at hm
  | cons seg rest ih =>
    unfold readFields
    rw [readField_eq seg (hlen seg (List.mem_cons_self _ _))]
    cases ht : type_from_name_find (typeNameOf seg) with
    | none => rfl
    | some t =>
      simp only
      have : readFields rest = none := by
        apply ih (fun s hs => hlen s (List.mem_cons_of_mem _ hs))
        obtain ⟨s, hm, hs⟩ := h
        rcases List.mem_cons.1 hm with rfl | hm
        · rw [ht] at hs; exact absurd hs (by simp)
        · exact ⟨s, hm, hs⟩
      rw [this]

theorem readFields_specs (specs : List (Str × Str × FieldType))
    (hlen : ∀ s ∈ specs, (s.1 ++ ':' :: s.2.1).length < npos)
    (h : ∀ s ∈ specs, ':' ∉ s.1 ∧ type_from_name_find s.2.1 = some s.2.2) :
    readFields (specs.map (fun s => s.1 ++ ':' :: s.2.1)) =
      some (specs.map (fun s => (s.1, s.2.2))) := by
  induction specs with
  | nil => rfl
  | cons s rest ih =>
    have hs := h s (List.mem_cons_self _ _)
    simp only [List.map_cons]
    unfold readFields
    rw [readField_eq _ (hlen s (List.mem_cons_self _ _)),
      typeNameOf_append_colon _ _ hs.1, nameOf_append_colon _ _ hs.1, hs.2]
    simp only
    rw [ih (fun x hx => hlen x (List.mem_cons_of_mem _ hx))
      (fun x hx => h x (List.mem_cons_of_mem _ hx))]

theorem readField_type {field : Str} {f : Str × FieldType} (h : readField field = some f) :
    f.2.val ≤ 4 := by
  unfold readField at h
  split at h
  · exact absurd h (by simp)
  · rename_i t ht
    have hm := (type_from_name_find_eq_some_iff _ _).1 ht
    rw [← Option.some.inj h]
    simp only [type_from_name, List.mem_cons, Prod.mk.injEq, List.mem_singleton,
      List.not_mem_nil] at hm
    show t.val ≤ 4
    rcases hm with ⟨-, rfl⟩ | ⟨-, rfl⟩ | ⟨-, rfl⟩ | ⟨-, rfl⟩ | ⟨-, rfl⟩ | hm
    · decide
    · decide
    · decide
    · decide
    · decide
    · exact absurd hm id

theorem readFields_types : ∀ (segs : List Str) (fs : List (Str × FieldType)),
    readFields segs = some fs → ∀ f ∈ fs, f.2.val ≤ 4 := by
  intro segs
  induction segs with
  | nil =>
    intro fs h f hf
    simp only [readFields, Option.some.injEq] at h
    rw [← h] at hf; simp at hf
  | cons seg rest ih =>
    intro fs h f hf
    unfold readFields at h
    cases h1 : readField seg with
    | none => rw [h1] at h; exact absurd h (by simp)
    | some g =>
      rw [h1] at h
      simp only at h
      cases h2 : readFields rest with
      | none => rw [h2] at h; exact absurd h (by simp)
      | some gs =>
        rw [h2] at h
        simp only [Option.some.injEq] at h
        rw [← h] at hf
        rcases List.mem_cons.1 hf with rfl | hf
        · exact readField_type h1
        · exact ih gs h2 f hf

theorem readFields_length : ∀ (segs : List Str) (fs : List (Str × FieldType)),
    readFields segs = some fs → fs.length = segs.length := by
  intro segs
  induction segs with
  | nil => intro fs h; simp only [readFields, Option.some.injEq] at h; rw [← h]; rfl
  | cons seg rest ih =>
    intro fs h
    unfold readFields at h
    cases h1 : readField seg with
    | none => rw [h1] at h; exact absurd h (by simp)
    | some g =>
      rw [h1] at h
      simp only at h
      cases h2 : readFields rest with
      | none => rw [h2] at h; exact absurd h (by simp)
      | some gs =>
        rw [h2] at h
        simp only [Option.some.injEq] at h
        rw [← h]
        simp [ih gs h2]

theorem readFromLine_of_split {line f0 f1 f2 : Str} {rest : List Str}
    (h : boost_split ';' line = f0 :: f1 :: f2 :: rest) :
    readFromLine line =
      match readFields (f2 :: rest) with
      | none => Except.error ReadError.unknownType
      | some fs =>
        Except.ok
          { _num_fields := (f0 :: f1 :: f2 :: rest).length,
            _msg_id := (strtod f0).toInt,
            _msg_name := f1,
            _msg_fields := fs } := by
  unfold readFromLine
  rw [h]

theorem readFromLine_malformed_iff (line : Str) :
    readFromLine line = Except.error ReadError.malformed ↔ (boost_split ';' line).length < 3 := by
  unfold readFromLine
  cases h : boost_split ';' line with
  | nil => simp
  | cons f0 l1 =>
    cases l1 with
    | nil => simp
    | cons f1 l2 =>
      cases l2 with
      | nil => simp
      | cons f2 rest =>
        simp only [List.length_cons]
        cases readFields (f2 :: rest) <;> simp

theorem readFromLine_ok_fields {line : Str} {mp : MessagePattern}
    (h : readFromLine line = Except.ok mp) :
    (∀ f ∈ mp._msg_fields, f.2.val ≤ 4) ∧ 1 ≤ mp._msg_fields.length := by
  unfold readFromLine at h
  split at h
  · rename_i f0 f1 f2 rest hs
    cases h1 : readFields (f2 :: rest) with
    | none => rw [h1] at h; exact absurd h (by simp)
    | some fs =>
      rw [h1] at h
      simp only [Except.ok.injEq] at h
      rw [← h]
      exact ⟨readFields_types _ _ h1, by rw [readFields_length _ _ h1]; simp⟩
  · exact absurd h (by simp)

end MessagePattern

/-! ### The catalog -/

namespace Patterns

theorem find_nil (k : Int) : find [] k = none := rfl

theorem find_append_singleton (m : Patterns) (k k' : Int) (v : MessagePattern) :
    find (m ++ [(k, v)]) k' =
      match find m k' with
      | some x => some x
      | none => if k = k' then some v else none := by
  unfold find
  rw [List.find?_append]
  cases h : List.find? (fun e => decide (e.1 = k')) m with
  | some e => simp
  | none =>
    by_cases hk : k = k' <;> simp [List.find?, hk]

theorem find_emplace (m : Patterns) (k k' : Int) (v : MessagePattern) :
    find (emplace m k v) k' =
      match find m k' with
      | some x => some x
      | none => if k = k' then some v else none := by
  unfold emplace
  cases hk : find m k with
  | some x =>
    simp only
    cases hk' : find m k' with
    | some y => rfl
    | none =>
      have : k ≠ k' := by
        intro h; rw [h, hk'] at hk; exact absurd hk (by simp)
      simp [this]
  | none => simp only; exact find_append_singleton m k k' v

end Patterns

namespace MessagePatternManager

theorem InitLine_eq (patterns : Patterns) (line : Str) :
    InitLine patterns line =
      match accepted line with
      | none => patterns
      | some mp => Patterns.emplace patterns mp._msg_id mp := by
  unfold InitLine accepted
  by_cases hc : starts_with line '#' = true
  · simp [hc]
  · simp only [hc]
    cases MessagePattern.readFromLine line <;> rfl

theorem find_foldl_InitLine (lines : List Str) : ∀ (acc : Patterns) (id : Int),
    Patterns.find (lines.foldl InitLine acc) id =
      match Patterns.find acc id with
      | some x => some x
      | none => (lines.filterMap accepted).find? (fun mp => mp._msg_id = id) := by
  induction lines with
  | nil => intro acc id; cases h : Patterns.find acc id <;> simp [h]
  | cons line rest ih =>
    intro acc id
    rw [List.foldl_cons, ih, InitLine_eq]
    cases ha : accepted line with
    | none => simp [List.filterMap_cons, ha]
    | some mp =>
      simp only [List.filterMap_cons, ha, Patterns.find_emplace]
      cases h : Patterns.find acc id with
      | some x => rfl
      | none =>
        by_cases hk : mp._msg_id = id <;> simp [List.find?, hk]

/-- What `LocatePattern` returns after `Init`: the pattern of the first line of
the file that is accepted with this id. -/
theorem LocatePattern_Init (lines : List Str) (id : Int) :
    (Init lines).2.LocatePattern id =
      (lines.filterMap accepted).find? (fun mp => mp._msg_id = id) := by
  unfold LocatePattern Init
  simp only
  rw [find_foldl_InitLine]
  rfl

end MessagePatternManager

namespace Patterns

theorem find_eq_none_iff (m : Patterns) (k : Int) :
    find m k = none ↔ k ∉ m.map Prod.fst := by
  unfold find
  cases h : List.find? (fun e => decide (e.1 = k)) m with
  | none =>
    simp only [true_iff]
    rw [List.find?_eq_none] at h
    intro hm
    obtain ⟨e, he, hk⟩ := List.mem_map.1 hm
    exact h e he (by simpa using hk)
  | some e =>
    have h1 := List.mem_of_find?_eq_some h
    have h2 := List.find?_some h
    simp only [decide_eq_true_eq] at h2
    have hm : k ∈ m.map Prod.fst := List.mem_map.2 ⟨e, h1, h2⟩
    constructor
    · intro hc; exact absurd hc (by simp)
    · intro hc; exact absurd hm hc

theorem filter_of_find (m : Patterns) (k : Int) (v : MessagePattern)
    (hnd : (m.map Prod.fst).Nodup) (h : find m k = some v) :
    m.filter (fun e => e.1 = k) = [(k, v)] := by
  induction m with
  | nil => exact absurd h (by simp [find])
  | cons e m ih =>
    simp only [List.map_cons, List.nodup_cons] at hnd
    by_cases hk : e.1 = k
    · have hv : e.2 = v := by
        simpa [find, List.find?, hk] using h
      have hnone : List.filter (fun e => decide (e.1 = k)) m = [] := by
        rw [List.filter_eq_nil_iff]
        intro x hx hxk
        simp only [decide_eq_true_eq] at hxk
        exact hnd.1 (List.mem_map.2 ⟨x, hx, by rw [hxk, hk]⟩)
      rw [List.filter_cons_of_pos (by simpa using hk), hnone, ← hk, ← hv]
    · have h' : find m k = some v := by
        simpa [find, List.find?, hk] using h
      rw [List.filter_cons_of_neg (by simpa using hk)]
      exact ih hnd.2 h'

theorem emplace_keys_nodup (m : Patterns) (k : Int) (v : MessagePattern)
    (hnd : (m.map Prod.fst).Nodup) : ((emplace m k v).map Prod.fst).Nodup := by
  unfold emplace
  cases h : find m k with
  | some x => exact hnd
  | none =>
    simp only [List.map_append, List.map_cons, List.map_nil]
    rw [List.nodup_append]
    refine ⟨hnd, List.nodup_singleton k, ?_⟩
    intro a ha hb
    rw [List.mem_singleton] at hb
    subst hb
    exact (find_eq_none_iff m a).1 h ha

end Patterns

namespace MessagePatternManager

theorem keys_nodup_foldl (lines : List Str) : ∀ acc : Patterns,
    (acc.map Prod.fst).Nodup → ((lines.foldl InitLine acc).map Prod.fst).Nodup := by
  induction lines with
  | nil => intro acc h; exact h
  | cons line rest ih =>
    intro acc h
    rw [List.foldl_cons]
    apply ih
    rw [InitLine_eq]
    cases accepted line with
    | none => exact h
    | some mp => exact Patterns.emplace_keys_nodup acc _ mp h

theorem accepted_eq_some_iff (line : Str) (mp : MessagePattern) :
    accepted line = some mp ↔
      starts_with line '#' = false ∧ MessagePattern.readFromLine line = Except.ok mp := by
  unfold accepted
  by_cases hc : starts_with line '#' = true
  · simp [hc]
  · simp only [hc, Bool.false_eq_true, if_false]
    cases h : MessagePattern.readFromLine line with
    | error e => simp
    | ok m => simp

/-- C2. For every sequence of definition lines, a line that is parsed
successfully and is the earliest such line with its message id determines the
catalog entry for that id, whatever definitions of the same id follow:
`LocatePattern` on the id returns the pattern of that line (its name and field
list), and the catalog holds this one entry for the id. -/
theorem first_definition_wins (pre post : List Str) (line : Str) (mp : MessagePattern)
    (hline : starts_with line '#' = false)
    (hread : MessagePattern.readFromLine line = Except.ok mp)
    (hfirst : ∀ l ∈ pre, ∀ mp' : MessagePattern, starts_with l '#' = false →
      MessagePattern.readFromLine l = Except.ok mp' → mp'._msg_id ≠ mp._msg_id) :
    (Init (pre ++ line :: post)).1 = 0 ∧
    (Init (pre ++ line :: post)).2.LocatePattern mp._msg_id = some mp ∧
    (Init (pre ++ line :: post)).2._patterns.filter (fun e => e.1 = mp._msg_id)
      = [(mp._msg_id, mp)] := by
  have hloc : (Init (pre ++ line :: post)).2.LocatePattern mp._msg_id = some mp := by
    rw [LocatePattern_Init, List.filterMap_append, List.find?_append]
    have hpre : List.find? (fun m => decide (m._msg_id = mp._msg_id))
        (List.filterMap accepted pre) = none := by
      rw [List.find?_eq_none]
      intro m hm
      obtain ⟨l, hl, hacc⟩ := List.mem_filterMap.1 hm
      have := (accepted_eq_some_iff l m).1 hacc
      simpa using hfirst l hl m this.1 this.2
    have hacc : accepted line = some mp := (accepted_eq_some_iff line mp).2 ⟨hline, hread⟩
    rw [hpre, List.filterMap_cons, hacc]
    simp [List.find?]
  refine ⟨rfl, hloc, ?_⟩
  apply Patterns.filter_of_find
  · exact keys_nodup_foldl _ [] (by simp)
  · exact hloc

end MessagePatternManager

namespace MessagePatternManager

/-- The second definition of id 1 is discarded. -/
theorem first_definition_wins_witness :
    starts_with "1;A;x:int".toList '#' = false ∧
    MessagePattern.readFromLine "1;A;x:int".toList = Except.ok
      { _num_fields := 3, _msg_id := 1, _msg_name := "A".toList,
        _msg_fields := [("x".toList, FieldType.TYPE_INT)] } ∧
    (MessagePatternManager.Init ["# schema".toList, "2;Other;a:int".toList, "1;A;x:int".toList,
           "1;B;y:string;z:bool".toList]).2.LocatePattern 1
      = some { _num_fields := 3, _msg_id := 1, _msg_name := "A".toList,
               _msg_fields := [("x".toList, FieldType.TYPE_INT)] } :=
  ⟨by decide, by rfl,
    (MessagePatternManager.first_definition_wins ["# schema".toList, "2;Other;a:int".toList]
      ["1;B;y:string;z:bool".toList] "1;A;x:int".toList
      { _num_fields := 3, _msg_id := 1, _msg_name := "A".toList,
        _msg_fields := [("x".toList, FieldType.TYPE_INT)] }
      (by decide) (by rfl)
      (by
        intro l hl mp' hc hr
        simp only [List.mem_cons, List.mem_singleton, List.not_mem_nil, or_false] at hl
        rcases hl with rfl | rfl
        · exact absurd hc (by decide)
        · have h2 : MessagePattern.readFromLine "2;Other;a:int".toList = Except.ok
              { _num_fields := 3, _msg_id := 2, _msg_name := "Other".toList,
                _msg_fields := [("a".toList, FieldType.TYPE_INT)] } := by rfl
          rw [h2] at hr
          rw [← Except.ok.inj hr]
          decide)).2.1⟩

end MessagePatternManager

theorem boost_split_token_length {sep : Char} {s t : Str} (h : t ∈ boost_split sep s) :
    t.length ≤ s.length :=
  splitAux_token_length _ s false t h

namespace MessagePattern

/-- What `readFromLine` yields for a line that `boost::split` cuts into `id`,
`name` and one or more well-typed field specs. -/
theorem readFromLine_of_segments (line id name : Str) (specs : List (Str × Str × FieldType))
    (hform : boost_split ';' line = id :: name :: specs.map (fun s => s.1 ++ ':' :: s.2.1))
    (hn : 1 ≤ specs.length)
    (hspec : ∀ s ∈ specs, ':' ∉ s.1 ∧ type_from_name_find s.2.1 = some s.2.2)
    (hlen : line.length < npos) :
    ∃ mp : MessagePattern,
      readFromLine line = Except.ok mp ∧
      mp._msg_fields.length = specs.length ∧
      mp._msg_fields = specs.map (fun s => (s.1, s.2.2)) ∧
      mp._msg_name = name ∧
      mp._msg_id = (strtod id).toInt ∧
      mp._num_fields = specs.length + 2 := by
  cases specs with
  | nil => simp at hn
  | cons s rest =>
    have hlens : ∀ x ∈ s :: rest, (x.1 ++ ':' :: x.2.1).length < npos := by
      intro x hx
      have hm : (x.1 ++ ':' :: x.2.1) ∈ boost_split ';' line := by
        rw [hform]
        exact List.mem_cons_of_mem _ (List.mem_cons_of_mem _
          (List.mem_map.2 ⟨x, hx, rfl⟩))
      exact lt_of_le_of_lt (boost_split_token_length hm) hlen
    have hf := readFields_specs (s :: rest) hlens hspec
    simp only [List.map_cons] at hform hf
    rw [readFromLine_of_split hform, hf]
    exact ⟨_, rfl, by simp, by simp, rfl, rfl, by simp⟩

theorem not_mem_semicolon_of_registered {t : Str} {ty : FieldType}
    (h : type_from_name_find t = some ty) : ';' ∉ t := by
  have hm := (type_from_name_find_eq_some_iff t ty).1 h
  simp only [type_from_name, List.mem_cons, Prod.mk.injEq, List.mem_singleton,
    List.not_mem_nil] at hm
  rcases hm with ⟨rfl, -⟩ | ⟨rfl, -⟩ | ⟨rfl, -⟩ | ⟨rfl, -⟩ | ⟨rfl, -⟩ | hm
  · decide
  · decide
  · decide
  · decide
  · decide
  · exact absurd hm id

theorem flatMap_specs (specs : List (Str × Str × FieldType)) :
    (specs.map (fun s => s.1 ++ ':' :: s.2.1)).flatMap (fun s => ';' :: s)
      = specs.flatMap (fun s => ';' :: (s.1 ++ ':' :: s.2.1)) := by
  induction specs with
  | nil => rfl
  | cons s rest ih => simp only [List.map_cons, List.flatMap_cons, ih]

/-- C3, as stated, fails. The line "1;;x:int" is of the form `id;name;spec_1`
with the empty name and the well-typed spec "x:int", and `readFromLine` rejects
it; the line "1;;x:int;y:int" has two well-typed specs and yields one field,
"x:int" being taken for the name; the line "1;M;a:b:int", whose spec ends in the
registered type name "int" after a `:`, is rejected. -/
theorem readFromLine_form_fails :
    ("1".toList ++ ';' :: [] ++
        [("x".toList, "int".toList, FieldType.TYPE_INT)].flatMap
          (fun s => ';' :: (s.1 ++ ':' :: s.2.1)) = "1;;x:int".toList ∧
     type_from_name_find "int".toList = some FieldType.TYPE_INT ∧
     readFromLine "1;;x:int".toList = Except.error ReadError.malformed) ∧
    ("1".toList ++ ';' :: [] ++
        [("x".toList, "int".toList, FieldType.TYPE_INT),
         ("y".toList, "int".toList, FieldType.TYPE_INT)].flatMap
          (fun s => ';' :: (s.1 ++ ':' :: s.2.1)) = "1;;x:int;y:int".toList ∧
     readFromLine "1;;x:int;y:int".toList = Except.ok
        { _num_fields := 3, _msg_id := 1, _msg_name := "x:int".toList,
          _msg_fields := [("y".toList, FieldType.TYPE_INT)] }) ∧
    ("1".toList ++ ';' :: "M".toList ++
        [("a:b".toList, "int".toList, FieldType.TYPE_INT)].flatMap
          (fun s => ';' :: (s.1 ++ ':' :: s.2.1)) = "1;M;a:b:int".toList ∧
     readFromLine "1;M;a:b:int".toList = Except.error ReadError.unknownType) := by
  decide

/-- C3, amended. For every schema line of the form `id;name;spec_1;...;spec_n`
with `n ≥ 1` and a name that is not empty, where each `spec_i` is
`name_i:type_i`, `name_i` has no `:` and every `type_i` is a registered type
name, `readFromLine` succeeds and yields a pattern whose field list has length
exactly `n`, whose i-th field name is `name_i` and whose i-th field type is the
registry's type for `type_i`. -/
theorem readFromLine_wellTyped (id name : Str) (specs : List (Str × Str × FieldType))
    (hid : ';' ∉ id) (hname : ';' ∉ name) (hne : name ≠ [])
    (hn : 1 ≤ specs.length)
    (hspec : ∀ s ∈ specs, ';' ∉ s.1 ∧ ':' ∉ s.1 ∧ type_from_name_find s.2.1 = some s.2.2)
    (hlen : (id ++ ';' :: name ++
      specs.flatMap (fun s => ';' :: (s.1 ++ ':' :: s.2.1))).length < npos) :
    ∃ mp : MessagePattern,
      readFromLine (id ++ ';' :: name ++
          specs.flatMap (fun s => ';' :: (s.1 ++ ':' :: s.2.1))) = Except.ok mp ∧
      mp._msg_fields.length = specs.length ∧
      mp._msg_fields = specs.map (fun s => (s.1, s.2.2)) ∧
      mp._msg_name = name ∧
      mp._msg_id = (strtod id).toInt ∧
      mp._num_fields = specs.length + 2 := by
  have hpieces : ∀ p ∈ name :: specs.map (fun s => s.1 ++ ':' :: s.2.1), ';' ∉ p ∧ p ≠ [] := by
    intro p hp
    rcases List.mem_cons.1 hp with rfl | hp
    · exact ⟨hname, hne⟩
    · obtain ⟨s, hs, rfl⟩ := List.mem_map.1 hp
      have h := hspec s hs
      refine ⟨?_, by simp⟩
      intro hm
      rcases List.mem_append.1 hm with h1 | h1
      · exact h.1 h1
      · rcases List.mem_cons.1 h1 with h2 | h2
        · exact absurd h2 (by decide)
        · exact not_mem_semicolon_of_registered h.2.2 h2
  have hform := boost_split_joined ';' id
    (name :: specs.map (fun s => s.1 ++ ':' :: s.2.1)) hid hpieces
  rw [List.flatMap_cons, flatMap_specs] at hform
  have hline : id ++ (';' :: name ++ specs.flatMap (fun s => ';' :: (s.1 ++ ':' :: s.2.1)))
      = id ++ ';' :: name ++ specs.flatMap (fun s => ';' :: (s.1 ++ ':' :: s.2.1)) := by
    simp
  rw [hline] at hform
  exact readFromLine_of_segments _ id name specs hform hn
    (fun s hs => ⟨(hspec s hs).2.1, (hspec s hs).2.2⟩) hlen

/-- The line "1;Login;user:string;ok:bool" yields the two fields `user` of type
String and `ok` of type Boolean. -/
theorem readFromLine_wellTyped_witness :
    "1".toList ++ ';' :: "Login".toList ++
        [("user".toList, "string".toList, FieldType.TYPE_STRING),
         ("ok".toList, "bool".toList, FieldType.TYPE_BOOL)].flatMap
          (fun s => ';' :: (s.1 ++ ':' :: s.2.1))
      = "1;Login;user:string;ok:bool".toList ∧
    (∃ mp : MessagePattern,
      readFromLine ("1".toList ++ ';' :: "Login".toList ++
        [("user".toList, "string".toList, FieldType.TYPE_STRING),
         ("ok".toList, "bool".toList, FieldType.TYPE_BOOL)].flatMap
          (fun s => ';' :: (s.1 ++ ':' :: s.2.1))) = Except.ok mp ∧
      mp._msg_fields.length
        = [("user".toList, "string".toList, FieldType.TYPE_STRING),
           ("ok".toList, "bool".toList, FieldType.TYPE_BOOL)].length ∧
      mp._msg_fields
        = [("user".toList, "string".toList, FieldType.TYPE_STRING),
           ("ok".toList, "bool".toList, FieldType.TYPE_BOOL)].map (fun s => (s.1, s.2.2)) ∧
      mp._msg_name = "Login".toList ∧
      mp._msg_id = (strtod "1".toList).toInt ∧
      mp._num_fields
        = [("user".toList, "string".toList, FieldType.TYPE_STRING),
           ("ok".toList, "bool".toList, FieldType.TYPE_BOOL)].length + 2) :=
  ⟨by decide,
    readFromLine_wellTyped "1".toList "Login".toList
      [("user".toList, "string".toList, FieldType.TYPE_STRING),
       ("ok".toList, "bool".toList, FieldType.TYPE_BOOL)]
      (by decide) (by decide) (by decide) (by decide) (by decide) (by decide)⟩

/-- C5, as stated, fails: the line "1;;x:int" has two separators `;`, hence
three `;`-separated segments, the middle one empty, and `readFromLine` rejects it
at the check of the segment count. -/
theorem readFromLine_rejects_empty_name :
    List.count ';' "1;;x:int".toList = 2 ∧
    ("1;;x:int".toList.splitOn ';').length = 3 ∧
    boost_split ';' "1;;x:int".toList = ["1".toList, "x:int".toList] ∧
    readFromLine "1;;x:int".toList = Except.error ReadError.malformed := by
  decide

/-- C5, amended. `readFromLine` rejects a line as a malformed definition exactly
when the line has fewer than 3 segments, a run of adjacent `;` separating once:
the number of segments is the number of maximal runs of `;` plus one. Every line
with fewer than 3 such segments fails, and no line with 3 or more of them is
rejected for its segment count. -/
theorem readFromLine_malformed_iff_runs (line : Str) :
    (readFromLine line = Except.error ReadError.malformed ↔ (boost_split ';' line).length < 3) ∧
    (readFromLine line = Except.error ReadError.malformed ↔ separatorRuns ';' line < 2) ∧
    (boost_split ';' line).length = separatorRuns ';' line + 1 := by
  have hm := readFromLine_malformed_iff line
  have hl := boost_split_length ';' line
  refine ⟨hm, ?_, hl⟩
  rw [hm, hl]; omega

end MessagePattern

namespace MessagePatternManager

/-- C4, as stated, fails: the line "1;;x:foo;y:int" has four `;`-separated
segments, its field spec "x:foo" names the type "foo", which is not in the
registry, and `readFromLine` succeeds, taking "x:foo" for the name; the catalog
built from this line alone has an entry for id 1. -/
theorem unknown_type_accepted_after_empty_name :
    "1;;x:foo;y:int".toList.splitOn ';'
      = ["1".toList, [], "x:foo".toList, "y:int".toList] ∧
    typeNameOf "x:foo".toList = "foo".toList ∧
    type_from_name_find (typeNameOf "x:foo".toList) = none ∧
    boost_split ';' "1;;x:foo;y:int".toList
      = ["1".toList, "x:foo".toList, "y:int".toList] ∧
    MessagePattern.readFromLine "1;;x:foo;y:int".toList = Except.ok
      { _num_fields := 3, _msg_id := 1, _msg_name := "x:foo".toList,
        _msg_fields := [("y".toList, FieldType.TYPE_INT)] } ∧
    (Init ["1;;x:foo;y:int".toList]).2.LocatePattern 1
      = some { _num_fields := 3, _msg_id := 1, _msg_name := "x:foo".toList,
               _msg_fields := [("y".toList, FieldType.TYPE_INT)] } := by
  decide

/-- C4, amended. For every schema line with at least 3 segments, a run of
adjacent `;` separating once, in which some field spec (a segment from the third
on) names a type that is not in the registry, `readFromLine` fails, at the check
of the type name; and a catalog built from lines among which no other line is a
definition of this line's id has no entry for that id. A spec names the text
after its first `:`, all of it when it has no `:`. -/
theorem unknown_type_rejected (line f0 f1 f2 : Str) (rest : List Str)
    (hsplit : boost_split ';' line = f0 :: f1 :: f2 :: rest)
    (hbad : ∃ seg ∈ f2 :: rest, type_from_name_find (typeNameOf seg) = none)
    (hlen : line.length < npos) :
    MessagePattern.readFromLine line = Except.error ReadError.unknownType ∧
    ∀ lines : List Str,
      (∀ l ∈ lines, l = line ∨ ∀ mp' : MessagePattern, starts_with l '#' = false →
          MessagePattern.readFromLine l = Except.ok mp' → mp'._msg_id ≠ (strtod f0).toInt) →
      (Init lines).1 = 0 ∧ (Init lines).2.LocatePattern (strtod f0).toInt = none := by
  have hfail : MessagePattern.readFromLine line = Except.error ReadError.unknownType := by
    rw [MessagePattern.readFromLine_of_split hsplit]
    have hl : ∀ seg ∈ f2 :: rest, seg.length < npos := by
      intro seg hseg
      have hm : seg ∈ boost_split ';' line := by
        rw [hsplit]
        exact List.mem_cons_of_mem _ (List.mem_cons_of_mem _ hseg)
      exact lt_of_le_of_lt (boost_split_token_length hm) hlen
    rw [MessagePattern.readFields_eq_none _ hl hbad]
  refine ⟨hfail, ?_⟩
  intro lines hothers
  refine ⟨rfl, ?_⟩
  rw [LocatePattern_Init, List.find?_eq_none]
  intro m hm
  obtain ⟨l, hl, hacc⟩ := List.mem_filterMap.1 hm
  have ha := (accepted_eq_some_iff l m).1 hacc
  rcases hothers l hl with rfl | h
  · rw [hfail] at ha
    exact absurd ha.2 (by simp)
  · simpa using h m ha.1 ha.2

/-- The line "7;Ping;a:int;b:foo" is rejected and id 7 stays undefined. -/
theorem unknown_type_rejected_witness :
    boost_split ';' "7;Ping;a:int;b:foo".toList
      = ["7".toList, "Ping".toList, "a:int".toList, "b:foo".toList] ∧
    type_from_name_find (typeNameOf "b:foo".toList) = none ∧
    MessagePattern.readFromLine "7;Ping;a:int;b:foo".toList
      = Except.error ReadError.unknownType ∧
    (Init ["7;Ping;a:int;b:foo".toList, "8;Pong;c:int".toList]).2.LocatePattern
      (strtod "7".toList).toInt = none :=
  ⟨by decide, by decide,
    (unknown_type_rejected "7;Ping;a:int;b:foo".toList "7".toList "Ping".toList
      "a:int".toList ["b:foo".toList] (by decide)
      ⟨"b:foo".toList, by decide, by decide⟩ (by decide)).1,
    ((unknown_type_rejected "7;Ping;a:int;b:foo".toList "7".toList "Ping".toList
      "a:int".toList ["b:foo".toList] (by decide)
      ⟨"b:foo".toList, by decide, by decide⟩ (by decide)).2
      ["7;Ping;a:int;b:foo".toList, "8;Pong;c:int".toList]
      (by
        intro l hl
        simp only [List.mem_cons, List.mem_singleton, List.not_mem_nil, or_false] at hl
        rcases hl with rfl | rfl
        · exact Or.inl rfl
        · right
          intro mp' _ hr
          have h8 : MessagePattern.readFromLine "8;Pong;c:int".toList = Except.ok
              { _num_fields := 3, _msg_id := 8, _msg_name := "Pong".toList,
                _msg_fields := [("c".toList, FieldType.TYPE_INT)] } := by decide
          rw [h8] at hr
          rw [← Except.ok.inj hr]
          decide)).2⟩

end MessagePatternManager

namespace MessageParser

theorem fieldLoop_eq (toks : List Str) : ∀ (fields : List (Str × FieldType)) (idx : Nat),
    idx + fields.length + 1 ≤ toks.length →
    fieldLoop toks fields idx =
      some (List.zipWith (fun f tok => ProcessMessageField tok f.2) fields
        (toks.drop (1 + idx))) := by
  intro fields
  induction fields with
  | nil => intro idx _; simp [fieldLoop]
  | cons f rest ih =>
    intro idx h
    simp only [List.length_cons] at h
    have hlt : 1 + idx < toks.length := by omega
    unfold fieldLoop
    rw [List.getElem?_eq_getElem hlt]
    simp only
    rw [ih (idx + 1) (by omega)]
    rw [List.drop_eq_getElem_cons hlt]
    simp only [List.zipWith_cons_cons]
    have : 1 + idx + 1 = 1 + (idx + 1) := by omega
    rw [this]

theorem ProcessMessageField_ok (tok : Str) (t : FieldType) (h : t.val ≤ 4) :
    (ProcessMessageField tok t).1 = 0 := by
  unfold ProcessMessageField
  obtain ⟨v⟩ := t
  simp only at h
  interval_cases v <;> rfl

end MessageParser

namespace MessageParser

theorem zipWith_all_ok : ∀ (fields : List (Str × FieldType)) (payload : List Str),
    (∀ f ∈ fields, f.2.val ≤ 4) →
    ∀ r ∈ List.zipWith (fun f tok => ProcessMessageField tok f.2) fields payload, r.1 = 0 := by
  intro fields
  induction fields with
  | nil => intro payload _ r hr; simp at hr
  | cons f rest ih =>
    intro payload hf r hr
    cases payload with
    | nil => simp at hr
    | cons tok toks =>
      simp only [List.zipWith_cons_cons, List.mem_cons] at hr
      rcases hr with rfl | hr
      · exact ProcessMessageField_ok tok f.2 (hf f (List.mem_cons_self _ _))
      · exact ih toks (fun g hg => hf g (List.mem_cons_of_mem _ hg)) r hr

theorem located_fields_supported (defs : List Str) (id : Int) (mp : MessagePattern)
    (h : (MessagePatternManager.Init defs).2.LocatePattern id = some mp) :
    ∀ f ∈ mp._msg_fields, f.2.val ≤ 4 := by
  rw [MessagePatternManager.LocatePattern_Init] at h
  have hm := List.mem_of_find?_eq_some h
  obtain ⟨l, -, hacc⟩ := List.mem_filterMap.1 hm
  have ha := (MessagePatternManager.accepted_eq_some_iff l mp).1 hacc
  exact (MessagePattern.readFromLine_ok_fields ha.2).1

theorem ParseLines_append (mpm : MessagePatternManager) (pre post : List Str) :
    ParseLines mpm (pre ++ post) =
      match ParseLines mpm pre with
      | none => none
      | some a =>
        match ParseLines mpm post with
        | none => none
        | some b => some (a ++ b) := by
  induction pre with
  | nil => cases h : ParseLines mpm post <;> simp [ParseLines, h]
  | cons l rest ih =>
    rw [List.cons_append, ParseLines, ParseLines, ih]
    cases ParseLine mpm l with
    | none => rfl
    | some rs =>
      cases ParseLines mpm rest with
      | none => rfl
      | some a =>
        cases ParseLines mpm post with
        | none => rfl
        | some b => simp

/-- The pass of `Parse` over a line in terms of the tokens `boost::split` yields
for the separator `,` with `token_compress_on`: for a line that is not a
comment, whose first token resolves to a schema with `k` declared fields and
which has at least `k` further tokens, the pass makes exactly `k` calls of
`ProcessMessageField`, in schema order, the i-th on the i-th further token and
the i-th declared field type, and what these calls write is what `Parse` writes
for the line, between the output for the lines before it and the output for the
lines after it; on a catalog built by `Init` each of the `k` calls succeeds. -/
theorem Parse_decodes_in_schema_order (mpm : MessagePatternManager) (line f0 : Str)
    (payload : List Str) (mp : MessagePattern)
    (hline : starts_with line '#' = false)
    (hsplit : boost_split ',' line = f0 :: payload)
    (hlookup : mpm.LocatePattern (strtod f0).toInt = some mp)
    (hcount : mp._msg_fields.length ≤ payload.length) :
    ParseLine mpm line
      = some (List.zipWith (fun f tok => ProcessMessageField tok f.2) mp._msg_fields payload) ∧
    (List.zipWith (fun f tok => ProcessMessageField tok f.2) mp._msg_fields payload).length
      = mp._msg_fields.length ∧
    (∀ (pre post : List Str) (before after : Str),
      ParseLines mpm pre = some before → ParseLines mpm post = some after →
      Parse { _mpmsptr := some mpm } (pre ++ line :: post)
        = some (0, before ++ written
            (List.zipWith (fun f tok => ProcessMessageField tok f.2) mp._msg_fields payload)
            ++ after)) ∧
    (∀ defs : List Str, mpm = (MessagePatternManager.Init defs).2 →
      ∀ r ∈ List.zipWith (fun f tok => ProcessMessageField tok f.2) mp._msg_fields payload,
        r.1 = 0) := by
  have hpl : ParseLine mpm line
      = some (List.zipWith (fun f tok => ProcessMessageField tok f.2) mp._msg_fields payload) := by
    unfold ParseLine
    simp only [hline, Bool.false_eq_true, if_false, hsplit]
    cases payload with
    | nil =>
      have : mp._msg_fields = [] := List.length_eq_zero.1 (Nat.le_zero.1 hcount)
      simp [this]
    | cons f1 rest =>
      simp only [hlookup]
      rw [fieldLoop_eq _ _ 0 (by simp only [List.length_cons] at hcount ⊢; omega)]
      rfl
  refine ⟨hpl, ?_, ?_, ?_⟩
  · rw [List.length_zipWith]; omega
  · intro pre post before after hpre hpost
    simp [Parse, ParseLines_append, ParseLines, hpre, hpost, hpl]
  · intro defs hdefs r hr
    subst hdefs
    exact zipWith_all_ok _ _ (located_fields_supported defs _ mp hlookup) r hr

/-- The schema "1;Login;user:string;ok:bool" with the message "1,alice,1"
decodes to `alice`, then `true`. -/
theorem Parse_decodes_in_schema_order_witness :
    starts_with "1,alice,1".toList '#' = false ∧
    boost_split ',' "1,alice,1".toList = "1".toList :: ["alice".toList, "1".toList] ∧
    (MessagePatternManager.Init ["1;Login;user:string;ok:bool".toList]).2.LocatePattern
        (strtod "1".toList).toInt
      = some { _num_fields := 4, _msg_id := 1, _msg_name := "Login".toList,
               _msg_fields := [("user".toList, FieldType.TYPE_STRING),
                               ("ok".toList, FieldType.TYPE_BOOL)] } ∧
    ParseLine (MessagePatternManager.Init ["1;Login;user:string;ok:bool".toList]).2
        "1,alice,1".toList
      = some (List.zipWith (fun f tok => ProcessMessageField tok f.2)
          [("user".toList, FieldType.TYPE_STRING), ("ok".toList, FieldType.TYPE_BOOL)]
          ["alice".toList, "1".toList]) ∧
    List.zipWith (fun f tok => ProcessMessageField tok f.2)
        [("user".toList, FieldType.TYPE_STRING), ("ok".toList, FieldType.TYPE_BOOL)]
        ["alice".toList, "1".toList]
      = [(0, "alice,\n".toList), (0, "true,\n".toList)] ∧
    Parse { _mpmsptr := some (MessagePatternManager.Init
        ["1;Login;user:string;ok:bool".toList]).2 } ["1,alice,1".toList]
      = some (0, "alice,\ntrue,\n".toList) :=
  ⟨by decide, by decide, by decide,
    (Parse_decodes_in_schema_order
      (MessagePatternManager.Init ["1;Login;user:string;ok:bool".toList]).2
      "1,alice,1".toList "1".toList ["alice".toList, "1".toList]
      { _num_fields := 4, _msg_id := 1, _msg_name := "Login".toList,
        _msg_fields := [("user".toList, FieldType.TYPE_STRING),
                        ("ok".toList, FieldType.TYPE_BOOL)] }
      (by decide) (by decide) (by decide) (by decide)).1,
    by decide, by decide⟩

end MessageParser

/-! ### The type tag -/

/-- C11. `ProcessMessageField` fails (returns nonzero) if and only if the type
tag is outside the closed set of the five supported types: for every token and
each of `TYPE_INT`, `TYPE_BOOL`, `TYPE_DOUBLE`, `TYPE_STRING`, `TYPE_TIMESTAMP` it
returns 0, whatever the token, and for any other tag value it returns `-1` and
writes nothing. -/
theorem ProcessMessageField_fails_iff (msg : Str) (type : FieldType) :
    ((ProcessMessageField msg type).1 ≠ 0 ↔
      type ∉ [FieldType.TYPE_INT, FieldType.TYPE_BOOL, FieldType.TYPE_DOUBLE,
              FieldType.TYPE_STRING, FieldType.TYPE_TIMESTAMP]) ∧
    ((ProcessMessageField msg type).1 = 0 ↔
      type ∈ [FieldType.TYPE_INT, FieldType.TYPE_BOOL, FieldType.TYPE_DOUBLE,
              FieldType.TYPE_STRING, FieldType.TYPE_TIMESTAMP]) ∧
    ((ProcessMessageField msg type).1 ≠ 0 ↔ ProcessMessageField msg type = (-1, [])) ∧
    ((ProcessMessageField msg type).1 ≠ 0 ↔ (ProcessMessageField msg type).2 = []) := by
  obtain ⟨v⟩ := type
  rcases v with _ | _ | _ | _ | _ | n
  · simp [ProcessMessageField, FieldType.TYPE_INT, endl]
  · simp [ProcessMessageField, FieldType.TYPE_INT, FieldType.TYPE_BOOL, endl]
  · simp [ProcessMessageField, FieldType.TYPE_INT, FieldType.TYPE_BOOL,
      FieldType.TYPE_DOUBLE, endl]
  · simp [ProcessMessageField, FieldType.TYPE_INT, FieldType.TYPE_BOOL,
      FieldType.TYPE_DOUBLE, FieldType.TYPE_STRING, endl]
  · simp [ProcessMessageField, FieldType.TYPE_INT, FieldType.TYPE_BOOL,
      FieldType.TYPE_DOUBLE, FieldType.TYPE_STRING, FieldType.TYPE_TIMESTAMP, endl]
  · simp [ProcessMessageField, FieldType.TYPE_INT, FieldType.TYPE_BOOL,
      FieldType.TYPE_DOUBLE, FieldType.TYPE_STRING, FieldType.TYPE_TIMESTAMP]

theorem boost_split_of_not_mem (sep : Char) (s : Str) (h : sep ∉ s) :
    boost_split sep s = [s] := by
  apply splitAux_no_sep
  intro c hc
  simp only [decide_eq_false_iff_not]
  intro e; subst e; exact h hc

theorem splitAux_two_le (sep : Char) (s : Str) (h : sep ∈ s) :
    2 ≤ (splitAux (fun c => decide (c = sep)) false s).length := by
  induction s with
  | nil => simp at h
  | cons c cs ih =>
    by_cases hc : c = sep
    · rw [splitAux_cons_sep _ _ _ _ (by simpa using hc)]
      have := splitAux_ne_nil (fun c => decide (c = sep)) cs true
      cases hs : splitAux (fun c => decide (c = sep)) true cs with
      | nil => exact absurd hs this
      | cons t ts => simp
    · have hm : sep ∈ cs := by
        rcases List.mem_cons.1 h with e | e
        · exact absurd e.symm hc
        · exact e
      have h2 := ih hm
      rw [splitAux_cons_other _ _ _ _ (by simpa using hc)]
      cases hs : splitAux (fun c => decide (c = sep)) false cs with
      | nil => rw [hs] at h2; simp at h2
      | cons t ts => rw [hs] at h2; simpa using h2

theorem boost_split_length_lt_two_iff (sep : Char) (s : Str) :
    (boost_split sep s).length < 2 ↔ sep ∉ s := by
  constructor
  · intro h hm
    have := splitAux_two_le sep s hm
    unfold boost_split at h
    omega
  · intro h
    rw [boost_split_of_not_mem sep s h]
    simp

namespace MessageParser

theorem Parse_skipped_line (mpm : MessagePatternManager) (line : Str)
    (h : ParseLine mpm line = some []) (pre post : List Str) (before after : Str)
    (hpre : ParseLines mpm pre = some before) (hpost : ParseLines mpm post = some after) :
    Parse { _mpmsptr := some mpm } (pre ++ line :: post) = some (0, before ++ after) := by
  simp [Parse, ParseLines_append, ParseLines, hpre, hpost, h, written]

/-- C12. For every catalog and every message line whose type id (the id read
from its first token) is not a key of the catalog, `Parse` skips the line: the
pass over the line makes no call of `ProcessMessageField` and writes nothing, the
run goes on with the following lines and `Parse` returns 0, its output being
that of the lines before followed by that of the lines after. -/
theorem unknown_type_id_skipped (mpm : MessagePatternManager) (line f0 : Str)
    (rest : List Str)
    (hsplit : boost_split ',' line = f0 :: rest)
    (hnone : mpm.LocatePattern (strtod f0).toInt = none) :
    ParseLine mpm line = some [] ∧
    (∀ (pre post : List Str) (before after : Str),
      ParseLines mpm pre = some before → ParseLines mpm post = some after →
      Parse { _mpmsptr := some mpm } (pre ++ line :: post) = some (0, before ++ after)) := by
  have h : ParseLine mpm line = some [] := by
    unfold ParseLine
    by_cases hc : starts_with line '#' = true
    · simp [hc]
    · simp only [hc, Bool.false_eq_true, if_false, hsplit]
      cases rest with
      | nil => rfl
      | cons f1 r => simp [hnone]
  exact ⟨h, fun pre post before after hpre hpost =>
    Parse_skipped_line mpm line h pre post before after hpre hpost⟩

/-- A line with id 99 against a catalog that defines id 1 only. -/
theorem unknown_type_id_skipped_witness :
    boost_split ',' "99,x".toList = "99".toList :: ["x".toList] ∧
    (MessagePatternManager.Init ["1;Login;user:string;ok:bool".toList]).2.LocatePattern
        (strtod "99".toList).toInt = none ∧
    ParseLine (MessagePatternManager.Init ["1;Login;user:string;ok:bool".toList]).2
        "99,x".toList = some [] ∧
    Parse { _mpmsptr := some (MessagePatternManager.Init
        ["1;Login;user:string;ok:bool".toList]).2 }
        (["1,alice,1".toList] ++ "99,x".toList :: ["1,bob,0".toList])
      = some (0, "alice,\ntrue,\n".toList ++ "bob,\nfalse,\n".toList) :=
  ⟨by decide, by decide,
    (unknown_type_id_skipped
      (MessagePatternManager.Init ["1;Login;user:string;ok:bool".toList]).2
      "99,x".toList "99".toList ["x".toList] (by decide) (by decide)).1,
    (unknown_type_id_skipped
      (MessagePatternManager.Init ["1;Login;user:string;ok:bool".toList]).2
      "99,x".toList "99".toList ["x".toList] (by decide) (by decide)).2
      ["1,alice,1".toList] ["1,bob,0".toList] "alice,\ntrue,\n".toList
      "bob,\nfalse,\n".toList (by decide) (by decide)⟩

/-- C13. For every message line with fewer than 2 `,`-separated segments, that
is a line without `,`, `Parse` skips the line: it writes nothing for it and goes
on, returning 0; and every line that is not a comment and has 2 or more
`,`-separated segments passes the check of the segment count and goes to the
lookup of the schema by the id of its first segment. -/
theorem too_few_tokens_skipped (mpm : MessagePatternManager) (line : Str) :
    (List.count ',' line + 1 < 2 ↔ (boost_split ',' line).length < 2) ∧
    ((boost_split ',' line).length < 2 →
      ParseLine mpm line = some [] ∧
      ∀ (pre post : List Str) (before after : Str),
        ParseLines mpm pre = some before → ParseLines mpm post = some after →
        Parse { _mpmsptr := some mpm } (pre ++ line :: post) = some (0, before ++ after)) ∧
    (2 ≤ (boost_split ',' line).length → starts_with line '#' = false →
      ∃ (f0 f1 : Str) (rest : List Str),
        boost_split ',' line = f0 :: f1 :: rest ∧
        ParseLine mpm line =
          match mpm.LocatePattern (strtod f0).toInt with
          | none => some []
          | some mp => fieldLoop (f0 :: f1 :: rest) mp._msg_fields 0) := by
  refine ⟨?_, ?_, ?_⟩
  · rw [boost_split_length_lt_two_iff]
    constructor
    · intro h hm
      have := List.count_pos_iff.2 hm
      omega
    · intro h
      have := List.count_eq_zero_of_not_mem h
      omega
  · intro h
    have hskip : ParseLine mpm line = some [] := by
      unfold ParseLine
      by_cases hc : starts_with line '#' = true
      · simp [hc]
      · simp only [hc, Bool.false_eq_true, if_false]
        cases hs : boost_split ',' line with
        | nil => rfl
        | cons f0 r =>
          cases r with
          | nil => rfl
          | cons f1 r2 => rw [hs] at h; simp only [List.length_cons] at h; omega
    exact ⟨hskip, fun pre post before after hpre hpost =>
      Parse_skipped_line mpm line hskip pre post before after hpre hpost⟩
  · intro h hc
    cases hs : boost_split ',' line with
    | nil => rw [hs] at h; simp at h
    | cons f0 r =>
      cases r with
      | nil => rw [hs] at h; simp at h
      | cons f1 r2 =>
        refine ⟨f0, f1, r2, rfl, ?_⟩
        unfold ParseLine
        simp only [hc, Bool.false_eq_true, if_false, hs]

/-- The line "7" is skipped; the line "7,x" goes to the lookup of id 7. -/
theorem too_few_tokens_skipped_witness :
    (boost_split ',' "7".toList).length < 2 ∧
    ParseLine (MessagePatternManager.Init ["7;Ping;a:string".toList]).2 "7".toList = some [] ∧
    2 ≤ (boost_split ',' "7,x".toList).length ∧
    starts_with "7,x".toList '#' = false ∧
    (∃ (f0 f1 : Str) (rest : List Str),
        boost_split ',' "7,x".toList = f0 :: f1 :: rest ∧
        ParseLine (MessagePatternManager.Init ["7;Ping;a:string".toList]).2 "7,x".toList =
          match (MessagePatternManager.Init ["7;Ping;a:string".toList]).2.LocatePattern
              (strtod f0).toInt with
          | none => some []
          | some mp => fieldLoop (f0 :: f1 :: rest) mp._msg_fields 0) ∧
    ParseLine (MessagePatternManager.Init ["7;Ping;a:string".toList]).2 "7,x".toList
      = some [(0, "x,\n".toList)] :=
  ⟨by decide,
    ((too_few_tokens_skipped (MessagePatternManager.Init ["7;Ping;a:string".toList]).2
      "7".toList).2.1 (by decide)).1,
    by decide, by decide,
    (too_few_tokens_skipped (MessagePatternManager.Init ["7;Ping;a:string".toList]).2
      "7,x".toList).2.2 (by decide) (by decide),
    by decide⟩

end MessageParser

namespace MessagePatternManager

theorem InitLine_ignored (patterns : Patterns) (line : Str)
    (h : starts_with line '#' = true ∨ ∃ e, MessagePattern.readFromLine line = Except.error e) :
    InitLine patterns line = patterns := by
  unfold InitLine
  rcases h with h | ⟨e, h⟩
  · simp [h]
  · rw [h]; simp

/-- C14. The catalog built by `Init` is unaffected by lines that are ignored:
for every list of definition lines, with or without a comment line (leading
`#`) or a line `readFromLine` rejects at any position, `Init` leaves the same
catalog and returns 0. -/
theorem ignored_line_irrelevant (pre post : List Str) (line : Str)
    (h : starts_with line '#' = true ∨ ∃ e, MessagePattern.readFromLine line = Except.error e) :
    Init (pre ++ line :: post) = Init (pre ++ post) ∧
    (Init (pre ++ line :: post)).1 = 0 ∧
    (∀ id : Int, (Init (pre ++ line :: post)).2.LocatePattern id
      = (Init (pre ++ post)).2.LocatePattern id) := by
  have he : Init (pre ++ line :: post) = Init (pre ++ post) := by
    unfold Init
    rw [List.foldl_append, List.foldl_append, List.foldl_cons, InitLine_ignored _ _ h]
  exact ⟨he, rfl, fun id => by rw [he]⟩

/-- A schema file with one comment line and one valid definition yields the
catalog that holds exactly that definition. -/
theorem ignored_line_irrelevant_witness :
    starts_with "# message definitions".toList '#' = true ∧
    Init ([] ++ "# message definitions".toList :: ["1;Login;user:string;ok:bool".toList])
      = Init ([] ++ ["1;Login;user:string;ok:bool".toList]) ∧
    Init ["# message definitions".toList, "1;Login;user:string;ok:bool".toList]
      = (0, { _patterns := [(1, { _num_fields := 4, _msg_id := 1, _msg_name := "Login".toList,
                                  _msg_fields := [("user".toList, FieldType.TYPE_STRING),
                                                  ("ok".toList, FieldType.TYPE_BOOL)] })] }) ∧
    (∃ e, MessagePattern.readFromLine "2;Broken".toList = Except.error e) ∧
    Init (["1;Login;user:string;ok:bool".toList] ++ "2;Broken".toList :: [])
      = Init (["1;Login;user:string;ok:bool".toList] ++ []) :=
  ⟨by decide,
    (ignored_line_irrelevant [] ["1;Login;user:string;ok:bool".toList]
      "# message definitions".toList (Or.inl (by decide))).1,
    by decide,
    ⟨ReadError.malformed, by decide⟩,
    (ignored_line_irrelevant ["1;Login;user:string;ok:bool".toList] []
      "2;Broken".toList (Or.inr ⟨ReadError.malformed, by decide⟩)).1⟩

end MessagePatternManager

namespace MessagePatternManager

theorem mem_emplace {m : Patterns} {k : Int} {v : MessagePattern} {e : Int × MessagePattern}
    (h : e ∈ Patterns.emplace m k v) : e ∈ m ∨ e = (k, v) := by
  unfold Patterns.emplace at h
  cases hf : Patterns.find m k with
  | some x => rw [hf] at h; exact Or.inl h
  | none =>
    rw [hf] at h
    simp only [List.mem_append, List.mem_singleton] at h
    exact h

theorem mem_foldl_InitLine (lines : List Str) : ∀ (acc : Patterns) (e : Int × MessagePattern),
    e ∈ lines.foldl InitLine acc →
    e ∈ acc ∨ ∃ l ∈ lines, ∃ mp, accepted l = some mp ∧ e = (mp._msg_id, mp) := by
  induction lines with
  | nil => intro acc e h; exact Or.inl h
  | cons line rest ih =>
    intro acc e h
    rw [List.foldl_cons] at h
    rcases ih _ e h with h1 | ⟨l, hl, mp, hacc, he⟩
    · rw [InitLine_eq] at h1
      cases ha : accepted line with
      | none => rw [ha] at h1; exact Or.inl h1
      | some mp =>
        rw [ha] at h1
        rcases mem_emplace h1 with h2 | h2
        · exact Or.inl h2
        · exact Or.inr ⟨line, List.mem_cons_self _ _, mp, ha, h2⟩
    · exact Or.inr ⟨l, List.mem_cons_of_mem _ hl, mp, hacc, he⟩

/-- C19. Catalog invariant: after `Init` on any list of definition lines, every
pattern stored in the catalog has a non-empty field list and is stored under a
key equal to its own `_msg_id`, each id has at most one pattern, and
`LocatePattern` returns a pattern for an id if and only if some line that is not
a comment and that `readFromLine` parses successfully has that id. -/
theorem catalog_invariant (lines : List Str) :
    (∀ e ∈ (Init lines).2._patterns, 1 ≤ e.2._msg_fields.length ∧ e.1 = e.2._msg_id) ∧
    ((Init lines).2._patterns.map Prod.fst).Nodup ∧
    (∀ id : Int, ((Init lines).2._patterns.filter (fun e => e.1 = id)).length ≤ 1) ∧
    (∀ id : Int, (∃ mp, (Init lines).2.LocatePattern id = some mp) ↔
      ∃ l ∈ lines, starts_with l '#' = false ∧
        ∃ mp, MessagePattern.readFromLine l = Except.ok mp ∧ mp._msg_id = id) := by
  have hnd : ((Init lines).2._patterns.map Prod.fst).Nodup :=
    keys_nodup_foldl lines [] (by simp)
  refine ⟨?_, hnd, ?_, ?_⟩
  · intro e he
    rcases mem_foldl_InitLine lines [] e he with h | ⟨l, -, mp, hacc, rfl⟩
    · simp at h
    · have ha := (accepted_eq_some_iff l mp).1 hacc
      exact ⟨(MessagePattern.readFromLine_ok_fields ha.2).2, rfl⟩
  · intro id
    cases hf : Patterns.find (Init lines).2._patterns id with
    | none =>
      have hk := (Patterns.find_eq_none_iff _ id).1 hf
      have : List.filter (fun e => decide (e.1 = id)) (Init lines).2._patterns = [] := by
        rw [List.filter_eq_nil_iff]
        intro x hx hxk
        simp only [decide_eq_true_eq] at hxk
        exact hk (List.mem_map.2 ⟨x, hx, hxk⟩)
      rw [this]; simp
    | some v =>
      rw [Patterns.filter_of_find _ id v hnd hf]; simp
  · intro id
    rw [LocatePattern_Init]
    constructor
    · rintro ⟨mp, h⟩
      have hm := List.mem_of_find?_eq_some h
      have hp := List.find?_some h
      simp only [decide_eq_true_eq] at hp
      obtain ⟨l, hl, hacc⟩ := List.mem_filterMap.1 hm
      have ha := (accepted_eq_some_iff l mp).1 hacc
      exact ⟨l, hl, ha.1, mp, ha.2, hp⟩
    · rintro ⟨l, hl, hc, mp, hr, hid⟩
      have hacc : accepted l = some mp := (accepted_eq_some_iff l mp).2 ⟨hc, hr⟩
      have hm : mp ∈ List.filterMap accepted lines := List.mem_filterMap.2 ⟨l, hl, hacc⟩
      cases hf : List.find? (fun m => decide (m._msg_id = id)) (List.filterMap accepted lines) with
      | some x => exact ⟨x, rfl⟩
      | none =>
        rw [List.find?_eq_none] at hf
        exact absurd (by simpa using hid) (hf mp hm)

end MessagePatternManager

namespace MessagePattern

/-- C20. In `readFromLine`, a field-spec segment that contains no `:` is treated
as having both its field name and its type name equal to the whole segment:
`find` returns `npos` and `middle_pos + 1` wraps to 0. Such a segment is accepted
exactly when the whole segment is a registered type name: "1;M;int" parses as
one field named "int" of type `TYPE_INT`, "1;M;user" is rejected. A segment with
more than one `:` is split at the first `:` only. -/
theorem segment_without_colon (field : Str) (hlen : field.length < npos) :
    (':' ∉ field →
      find field ':' = npos ∧
      (find field ':' + 1) % 2 ^ 64 = 0 ∧
      substr field 0 (find field ':') = field ∧
      substr field ((find field ':' + 1) % 2 ^ 64)
        ((field.length + 2 ^ 64 - find field ':') % 2 ^ 64) = field ∧
      readField field =
        (match type_from_name_find field with
         | none => none
         | some t => some (field, t)) ∧
      ((∃ f, readField field = some f) ↔ ∃ t, type_from_name_find field = some t)) ∧
    (∀ n t : Str, field = n ++ ':' :: t → ':' ∉ n →
      readField field =
        match type_from_name_find t with
        | none => none
        | some ty => some (n, ty)) ∧
    readFromLine "1;M;int".toList = Except.ok
      { _num_fields := 3, _msg_id := 1, _msg_name := "M".toList,
        _msg_fields := [("int".toList, FieldType.TYPE_INT)] } ∧
    readFromLine "1;M;user".toList = Except.error ReadError.unknownType ∧
    readField "a:b:int".toList = none ∧
    readField "a:int:b".toList = none ∧
    readField "a:int".toList = some ("a".toList, FieldType.TYPE_INT) := by
  refine ⟨?_, ?_, by decide, by decide, by decide, by decide, by decide⟩
  · intro hm
    have hfind : find field ':' = npos := by rw [find_colon]; simp [hm]
    have hrf := readField_eq field hlen
    have hname := nameOf_of_not_mem hm
    have htype : typeNameOf field = field := by simp [typeNameOf, hm]
    rw [hname, htype] at hrf
    have hlen' : field.length < 2 ^ 64 - 1 := hlen
    refine ⟨hfind, by rw [hfind]; unfold npos; norm_num, ?_, ?_, hrf, ?_⟩
    · rw [hfind]
      simp only [substr, List.drop_zero]
      apply List.take_of_length_le
      omega
    · rw [hfind]
      have h1 : (npos + 1) % 2 ^ 64 = 0 := by unfold npos; norm_num
      have h2 : (field.length + 2 ^ 64 - npos) % 2 ^ 64 = field.length + 1 := by
        unfold npos
        have : field.length + 2 ^ 64 - (2 ^ 64 - 1) = field.length + 1 := by omega
        rw [this]
        exact Nat.mod_eq_of_lt (by omega)
      rw [h1, h2]
      simp only [substr, List.drop_zero]
      apply List.take_of_length_le
      omega
    · rw [hrf]
      cases type_from_name_find field with
      | none =>
        constructor
        · rintro ⟨f, hf⟩; exact absurd hf (by intro h; cases h)
        · rintro ⟨t, ht⟩; exact absurd ht (by intro h; cases h)
      | some t => exact ⟨fun _ => ⟨t, rfl⟩, fun _ => ⟨(field, t), rfl⟩⟩
  · intro n t hf hn
    rw [readField_eq field hlen, hf, typeNameOf_append_colon n t hn, nameOf_append_colon n t hn]

/-- The segments "int" and "user". -/
theorem segment_without_colon_witness :
    "int".toList.length < npos ∧ ':' ∉ "int".toList ∧
    readField "int".toList = some ("int".toList, FieldType.TYPE_INT) ∧
    "user".toList.length < npos ∧ ':' ∉ "user".toList ∧
    readField "user".toList = none :=
  ⟨by decide, by decide,
    by
      rw [((segment_without_colon "int".toList (by decide)).1 (by decide)).2.2.2.2.1]
      decide,
    by decide, by decide,
    by
      rw [((segment_without_colon "user".toList (by decide)).1 (by decide)).2.2.2.2.1]
      decide⟩

end MessagePattern

namespace MessageParser

theorem fieldLoop_eq_none (toks : List Str) : ∀ (fields : List (Str × FieldType)) (idx : Nat),
    toks.length < idx + fields.length + 1 → idx + 1 ≤ toks.length →
    fieldLoop toks fields idx = none := by
  intro fields
  induction fields with
  | nil => intro idx h1 h2; simp only [List.length_nil] at h1; omega
  | cons f rest ih =>
    intro idx h1 h2
    simp only [List.length_cons] at h1
    unfold fieldLoop
    by_cases hlt : 1 + idx < toks.length
    · rw [List.getElem?_eq_getElem hlt]
      simp only
      rw [ih (idx + 1) (by omega) (by omega)]
    · rw [List.getElem?_eq_none (by omega)]

/-- C17. Under the precondition that the number of payload tokens of a message
line is at least the number of fields declared by the resolved schema, every
token access `msg_fields[1+msg_idx]` in the decoding loop of `Parse` is within
bounds and the pass over the line completes; without the precondition, with
fewer payload tokens than declared fields, the loop reaches an access that is
out of range, the first of them at the index just past the last token. -/
theorem token_access_in_bounds (mpm : MessagePatternManager) (line f0 f1 : Str)
    (rest : List Str) (mp : MessagePattern)
    (hline : starts_with line '#' = false)
    (hsplit : boost_split ',' line = f0 :: f1 :: rest)
    (hlookup : mpm.LocatePattern (strtod f0).toInt = some mp) :
    (mp._msg_fields.length ≤ (f1 :: rest).length →
      (∀ msg_idx : Nat, msg_idx < mp._msg_fields.length →
        ∃ tok, (f0 :: f1 :: rest)[1 + msg_idx]? = some tok) ∧
      ∃ rs, ParseLine mpm line = some rs) ∧
    ((f1 :: rest).length < mp._msg_fields.length →
      ParseLine mpm line = none ∧
      (f0 :: f1 :: rest)[1 + (f1 :: rest).length]? = none ∧
      ∀ (pre post : List Str), Parse { _mpmsptr := some mpm } (pre ++ line :: post) = none) := by
  have hpl : ParseLine mpm line = fieldLoop (f0 :: f1 :: rest) mp._msg_fields 0 := by
    unfold ParseLine
    simp only [hline, Bool.false_eq_true, if_false, hsplit, hlookup]
  constructor
  · intro h
    constructor
    · intro msg_idx hi
      have hlt : 1 + msg_idx < (f0 :: f1 :: rest).length := by
        simp only [List.length_cons] at h ⊢; omega
      exact ⟨_, List.getElem?_eq_getElem hlt⟩
    · rw [hpl, fieldLoop_eq _ _ 0 (by simp only [List.length_cons] at h ⊢; omega)]
      exact ⟨_, rfl⟩
  · intro h
    have hnone : ParseLine mpm line = none := by
      rw [hpl]
      exact fieldLoop_eq_none _ _ 0 (by simp only [List.length_cons] at h ⊢; omega)
        (by simp)
    refine ⟨hnone, ?_, ?_⟩
    · apply List.getElem?_eq_none
      simp only [List.length_cons]; omega
    · intro pre post
      simp only [Parse, ParseLines_append, ParseLines, hnone]
      cases ParseLines mpm pre <;> rfl

/-- The line "1,alice,1" has the two tokens the schema asks for; the line
"1,alice" has one and the loop runs past the end of the tokens. -/
theorem token_access_in_bounds_witness :
    (∃ rs, ParseLine (MessagePatternManager.Init ["1;Login;user:string;ok:bool".toList]).2
        "1,alice,1".toList = some rs) ∧
    ParseLine (MessagePatternManager.Init ["1;Login;user:string;ok:bool".toList]).2
        "1,alice".toList = none :=
  ⟨((token_access_in_bounds
      (MessagePatternManager.Init ["1;Login;user:string;ok:bool".toList]).2
      "1,alice,1".toList "1".toList "alice".toList ["1".toList]
      { _num_fields := 4, _msg_id := 1, _msg_name := "Login".toList,
        _msg_fields := [("user".toList, FieldType.TYPE_STRING),
                        ("ok".toList, FieldType.TYPE_BOOL)] }
      (by decide) (by decide) (by decide)).1 (by decide)).2,
    ((token_access_in_bounds
      (MessagePatternManager.Init ["1;Login;user:string;ok:bool".toList]).2
      "1,alice".toList "1".toList "alice".toList []
      { _num_fields := 4, _msg_id := 1, _msg_name := "Login".toList,
        _msg_fields := [("user".toList, FieldType.TYPE_STRING),
                        ("ok".toList, FieldType.TYPE_BOOL)] }
      (by decide) (by decide) (by decide)).2 (by decide)).1⟩

end MessageParser

/-! ### The message type id -/

theorem tolower_of_isdigit {c : Char} (h : isdigit c = true) : tolower c = c := by
  simp only [isdigit, Bool.and_eq_true, decide_eq_true_eq] at h
  unfold tolower
  have : ¬ ((65 ≤ c.toNat && c.toNat ≤ 90) = true) := by
    simp only [Bool.and_eq_true, decide_eq_true_eq]; omega
  simp [this]

theorem numeral_foldl (ds : Str) : ∀ acc : Nat,
    ds.foldl (fun acc c => acc * 10 + digitVal c) acc
      = acc * 10 ^ ds.length + decimalValue ds := by
  induction ds with
  | nil => intro acc; simp [decimalValue_nil]
  | cons c cs ih =>
    intro acc
    rw [List.foldl_cons, ih, decimalValue_cons, List.length_cons]
    ring

theorem numeral_eq_decimalValue (ds : Str) : numeral 10 digitVal ds = decimalValue ds := by
  unfold numeral
  rw [numeral_foldl]; simp

theorem span_isdigit_of_all {ds : Str} (h : ∀ c ∈ ds, isdigit c = true) :
    ds.span isdigit = (ds, []) := by
  rw [List.span_eq_take_drop, takeWhile_isdigit_of_all h]
  congr 1
  rw [List.dropWhile_eq_nil_iff]
  exact h

theorem decimalLiteral_of_digits {ds : Str} (h : ∀ c ∈ ds, isdigit c = true) (hne : ds ≠ []) :
    decimalLiteral ds = some (decimalValue ds, 1) := by
  unfold decimalLiteral mantissa
  rw [span_isdigit_of_all h]
  simp [hne, exponentPart, scaled, numeral_eq_decimalValue]

theorem log2Aux_le (fuel : Nat) : ∀ (n k : Nat), n < 2 ^ (k + 1) → log2Aux fuel n ≤ k := by
  induction fuel with
  | zero => intro n k _; simp [log2Aux]
  | succ fuel ih =>
    intro n k h
    unfold log2Aux
    by_cases h2 : 2 ≤ n
    · simp only [h2, if_true]
      cases k with
      | zero => simp at h; omega
      | succ k =>
        have : n / 2 < 2 ^ (k + 1) := by
          rw [Nat.div_lt_iff_lt_mul (by norm_num)]
          rw [pow_succ] at h; omega
        have := ih (n / 2) k this
        omega
    · simp [h2]

theorem roundBinary64_exact (n : Nat) (h : n < 2 ^ 52) :
    ∃ m d : Nat, roundBinary64 n 1 = some (m, d) ∧ 0 < d ∧ m = n * d := by
  unfold roundBinary64
  by_cases h0 : n = 0
  · exact ⟨0, 1, by simp [h0], by norm_num, by simp [h0]⟩
  · simp only [h0, if_false]
    have hl : (floorLog2 n 1 : Int) ≤ 51 := by
      unfold floorLog2
      have h1 : log2 n ≤ 51 := log2Aux_le n n 51 h
      have h2 : (0 : Int) ≤ (log2 1 : Int) := Int.ofNat_nonneg _
      split_ifs <;> omega
    have hk : ¬ (0 ≤ max (floorLog2 n 1) (-1022) - 52) := by
      have : max (floorLog2 n 1) (-1022) ≤ 51 := max_le hl (by norm_num)
      omega
    simp only [hk, if_false]
    refine ⟨_, _, rfl, by positivity, ?_⟩
    unfold roundHalfEven
    simp [Nat.mod_one]

theorem strtodMagnitude_of_digits (neg : Bool) {ds : Str} (h : ∀ c ∈ ds, isdigit c = true)
    (hne : ds ≠ []) (hv : decimalValue ds < 2 ^ 52) :
    ∃ m d : Nat, strtodMagnitude neg ds = Dbl.finite neg m d ∧ 0 < d ∧
      m = decimalValue ds * d := by
  obtain ⟨m, d, hr, hd, hm⟩ := roundBinary64_exact (decimalValue ds) hv
  refine ⟨m, d, ?_, hd, hm⟩
  cases ds with
  | nil => exact absurd rfl hne
  | cons c cs =>
    have hc : isdigit c = true := h c (List.mem_cons_self _ _)
    have hci : tolower c ≠ 'i' := by
      rw [tolower_of_isdigit hc]; intro e; rw [e] at hc; exact absurd hc (by decide)
    have hcn : tolower c ≠ 'n' := by
      rw [tolower_of_isdigit hc]; intro e; rw [e] at hc; exact absurd hc (by decide)
    have hinf : ¬ (((c :: cs).take 3).map tolower = ['i', 'n', 'f']) := by
      intro e
      simp only [List.take_succ_cons, List.map_cons, List.cons.injEq] at e
      exact hci e.1
    have hnan : ¬ (((c :: cs).take 3).map tolower = ['n', 'a', 'n']) := by
      intro e
      simp only [List.take_succ_cons, List.map_cons, List.cons.injEq] at e
      exact hcn e.1
    have hhex : ¬ (((c :: cs).take 2).map tolower = ['0', 'x']) := by
      intro e
      cases cs with
      | nil => simp at e
      | cons c2 cs2 =>
        have hc2 : isdigit c2 = true :=
          h c2 (List.mem_cons_of_mem _ (List.mem_cons_self _ _))
        simp only [List.take_succ_cons, List.map_cons, List.cons.injEq] at e
        have e2 := e.2.1
        rw [tolower_of_isdigit hc2] at e2
        rw [e2] at hc2
        exact absurd hc2 (by decide)
    unfold strtodMagnitude
    simp only [hinf, hnan, hhex, if_false]
    rw [decimalLiteral_of_digits h hne]
    simp only [hr]

theorem strtod_toInt_of_isSignedDecimal {tok : Str} (hw : isSignedDecimal tok = true)
    (hlo : INT_MIN ≤ signedDecimalValue tok) (hhi : signedDecimalValue tok ≤ INT_MAX) :
    (strtod tok).toInt = signedDecimalValue tok := by
  unfold INT_MIN at hlo
  unfold INT_MAX at hhi
  have toInt_eq : ∀ (neg : Bool) (n m d : Nat), 0 < d → m = n * d →
      (Dbl.finite neg m d).toInt =
        if neg then (if INT_MIN ≤ -(n : Int) then -(n : Int) else INT_MIN)
        else (if (n : Int) ≤ INT_MAX then (n : Int) else INT_MIN) := by
    intro neg n m d hd hm
    have : m / d = n := by rw [hm]; exact Nat.mul_div_cancel n hd
    simp only [Dbl.toInt, this]
  cases tok with
  | nil => simp [isSignedDecimal] at hw
  | cons c cs =>
    unfold strtod
    rw [skipSpace_of_isSignedDecimal hw]
    simp only
    by_cases hm : c = '-'
    · subst hm
      simp only [isSignedDecimal, true_or, if_true, Bool.and_eq_true, Bool.not_eq_true',
        List.isEmpty_eq_false, List.all_eq_true] at hw
      simp only [signedDecimalValue, if_true] at hlo hhi ⊢
      have hne : cs ≠ [] := by
        intro e; rw [e] at hw; simp at hw
      obtain ⟨m, d, hs, hd, hmd⟩ :=
        strtodMagnitude_of_digits true hw.2 hne (by omega)
      rw [hs, toInt_eq true _ m d hd hmd]
      unfold INT_MIN
      simp only [if_true]
      rw [if_pos (by omega)]
    · by_cases hp : c = '+'
      · subst hp
        simp only [isSignedDecimal, or_true, if_true, Bool.and_eq_true, Bool.not_eq_true',
          List.isEmpty_eq_false, List.all_eq_true] at hw
        simp only [signedDecimalValue, hm, if_false, if_true] at hlo hhi ⊢
        have hne : cs ≠ [] := by
          intro e; rw [e] at hw; simp at hw
        obtain ⟨m, d, hs, hd, hmd⟩ :=
          strtodMagnitude_of_digits false hw.2 hne (by omega)
        rw [hs, toInt_eq false _ m d hd hmd]
        unfold INT_MAX
        simp only [Bool.false_eq_true, if_false]
        rw [if_pos (by omega)]
      · have hs' : ¬ (c = '-' ∨ c = '+') := by
          intro e; rcases e with e | e
          · exact hm e
          · exact hp e
        simp only [isSignedDecimal, hs', if_false, List.all_eq_true] at hw
        simp only [signedDecimalValue, hm, hp, if_false] at hlo hhi ⊢
        obtain ⟨m, d, hs, hd, hmd⟩ :=
          strtodMagnitude_of_digits false hw (List.cons_ne_nil c cs) (by omega)
        rw [hs, toInt_eq false _ m d hd hmd]
        unfold INT_MAX
        simp only [Bool.false_eq_true, if_false]
        rw [if_pos (by omega)]

theorem ival_of_isSignedDecimal {tok : Str} (hw : isSignedDecimal tok = true)
    (hlo : INT_MIN ≤ signedDecimalValue tok) (hhi : signedDecimalValue tok ≤ INT_MAX) :
    ProcessMessageField.ival tok = signedDecimalValue tok := by
  have hs := skipSpace_of_isSignedDecimal hw
  have hp := numericPrefixValue_of_isSignedDecimal hw
  unfold ProcessMessageField.ival
  rw [atol_of_fits tok (by rw [hs, hp]; exact hlo) (by rw [hs, hp]; exact hhi), hs, hp]
  exact toInt32_of_fits hlo hhi

namespace MessageParser

theorem ParseLine_of_split {mpm : MessagePatternManager} {line f0 f1 : Str} {rest : List Str}
    (hline : starts_with line '#' = false)
    (hsplit : boost_split ',' line = f0 :: f1 :: rest) :
    ParseLine mpm line =
      match mpm.LocatePattern (strtod f0).toInt with
      | none => some []
      | some mp => fieldLoop (f0 :: f1 :: rest) mp._msg_fields 0 := by
  unfold ParseLine
  simp only [hline, Bool.false_eq_true, if_false, hsplit]

/-- C15, as stated, fails: the first tokens "1e1" and "0x10" give the ids 10
and 16, where the integer parse of the same tokens gives 1 and 0; the line
"1e1,x" is decoded with the schema of id 10 and is skipped when only id 1 is
defined. -/
theorem type_id_not_integer_prefix :
    ((strtod "1e1".toList).toInt = 10 ∧
     ProcessMessageField.ival "1e1".toList = 1 ∧
     numericPrefixValue "1e1".toList = 1) ∧
    ((strtod "0x10".toList).toInt = 16 ∧
     ProcessMessageField.ival "0x10".toList = 0 ∧
     numericPrefixValue "0x10".toList = 0) ∧
    ParseLine (MessagePatternManager.Init ["10;T;a:string".toList]).2 "1e1,x".toList
      = some [(0, "x,\n".toList)] ∧
    ParseLine (MessagePatternManager.Init ["1;T;a:string".toList]).2 "1e1,x".toList
      = some [] := by
  decide

/-- C15, amended. For every message line that reaches the lookup, the message
type id that `Parse` extracts from the first token is the value `std::strtod`
reads from that token, converted to `int`; when the first token is a well-formed
signed base-10 integer that fits in `int`, this id equals the permissive integer
parse of the token as defined for Integer fields. -/
theorem type_id_is_strtod (mpm : MessagePatternManager) (line f0 f1 : Str) (rest : List Str)
    (hline : starts_with line '#' = false)
    (hsplit : boost_split ',' line = f0 :: f1 :: rest) :
    ParseLine mpm line =
      (match mpm.LocatePattern (strtod f0).toInt with
       | none => some []
       | some mp => fieldLoop (f0 :: f1 :: rest) mp._msg_fields 0) ∧
    (isSignedDecimal f0 = true → INT_MIN ≤ signedDecimalValue f0 →
      signedDecimalValue f0 ≤ INT_MAX →
      (strtod f0).toInt = ProcessMessageField.ival f0 ∧
      (strtod f0).toInt = numericPrefixValue f0 ∧
      (strtod f0).toInt = signedDecimalValue f0) := by
  refine ⟨ParseLine_of_split hline hsplit, ?_⟩
  intro hw hlo hhi
  have h1 := strtod_toInt_of_isSignedDecimal hw hlo hhi
  exact ⟨by rw [h1, ival_of_isSignedDecimal hw hlo hhi], by
    rw [h1, numericPrefixValue_of_isSignedDecimal hw], h1⟩

/-- The line "1,alice,1": the id is 1 under both parses. -/
theorem type_id_is_strtod_witness :
    starts_with "1,alice,1".toList '#' = false ∧
    boost_split ',' "1,alice,1".toList = "1".toList :: "alice".toList :: ["1".toList] ∧
    isSignedDecimal "1".toList = true ∧
    signedDecimalValue "1".toList = 1 ∧
    (strtod "1".toList).toInt = ProcessMessageField.ival "1".toList ∧
    (strtod "1".toList).toInt = signedDecimalValue "1".toList :=
  ⟨by decide, by decide, by decide, by decide,
    ((type_id_is_strtod (MessagePatternManager.Init ["1;Login;user:string;ok:bool".toList]).2
      "1,alice,1".toList "1".toList "alice".toList ["1".toList] (by decide) (by decide)).2
      (by decide) (by decide) (by decide)).1,
    ((type_id_is_strtod (MessagePatternManager.Init ["1;Login;user:string;ok:bool".toList]).2
      "1,alice,1".toList "1".toList "alice".toList ["1".toList] (by decide) (by decide)).2
      (by decide) (by decide) (by decide)).2.2⟩

/-! ### The text written for a line -/

theorem ProcessMessageField_eq_fieldText (msg : Str) (t : FieldType) (h : t.val ≤ 4) :
    ProcessMessageField msg t = (0, fieldText msg t ++ [',', '\n']) := by
  obtain ⟨v⟩ := t
  simp only at h
  interval_cases v <;> simp [ProcessMessageField, fieldText, endl]

theorem written_zipWith : ∀ (fields : List (Str × FieldType)) (payload : List Str),
    (∀ f ∈ fields, f.2.val ≤ 4) →
    written (List.zipWith (fun f tok => ProcessMessageField tok f.2) fields payload)
      = (List.zipWith (fun f tok => fieldText tok f.2 ++ [',', '\n']) fields payload).flatten := by
  intro fields
  induction fields with
  | nil => intro payload _; simp [written]
  | cons f rest ih =>
    intro payload hf
    cases payload with
    | nil => simp [written]
    | cons tok toks =>
      have h1 := ProcessMessageField_eq_fieldText tok f.2 (hf f (List.mem_cons_self _ _))
      have h2 := ih toks (fun g hg => hf g (List.mem_cons_of_mem _ hg))
      simp only [written] at h2 ⊢
      simp only [List.zipWith_cons_cons, List.map_cons, List.flatten_cons, h1, h2]

theorem ParseLine_eq_zipWith (mpm : MessagePatternManager) (line f0 : Str)
    (payload : List Str) (mp : MessagePattern)
    (hline : starts_with line '#' = false)
    (hsplit : boost_split ',' line = f0 :: payload)
    (hlookup : mpm.LocatePattern (strtod f0).toInt = some mp)
    (hcount : mp._msg_fields.length ≤ payload.length) :
    ParseLine mpm line
      = some (List.zipWith (fun f tok => ProcessMessageField tok f.2) mp._msg_fields payload) := by
  unfold ParseLine
  simp only [hline, Bool.false_eq_true, if_false, hsplit]
  cases payload with
  | nil =>
    have : mp._msg_fields = [] := List.length_eq_zero.1 (Nat.le_zero.1 hcount)
    simp [this]
  | cons f1 rest =>
    simp only [hlookup]
    rw [fieldLoop_eq _ _ 0 (by simp only [List.length_cons] at hcount ⊢; omega)]
    rfl

/-- C16, as stated, fails: for the line "1,alice,1" under the schema
"1;Login;user:string;ok:bool" the renderings are "alice" and "true", the one line
of the claim would be "alice,true" and a line end, and what is written is
"alice," and a line end, then "true," and a line end; for a schema with one field
what is written ends in "," before the line end. -/
theorem one_line_per_field :
    fieldText "alice".toList FieldType.TYPE_STRING = "alice".toList ∧
    fieldText "1".toList FieldType.TYPE_BOOL = "true".toList ∧
    List.intercalate [','] [fieldText "alice".toList FieldType.TYPE_STRING,
        fieldText "1".toList FieldType.TYPE_BOOL] ++ ['\n'] = "alice,true\n".toList ∧
    Parse { _mpmsptr := some (MessagePatternManager.Init
        ["1;Login;user:string;ok:bool".toList]).2 } ["1,alice,1".toList]
      = some (0, "alice,\ntrue,\n".toList) ∧
    "alice,\ntrue,\n".toList ≠ "alice,true\n".toList ∧
    List.count '\n' "alice,\ntrue,\n".toList = 2 ∧
    Parse { _mpmsptr := some (MessagePatternManager.Init
        ["2;Name;user:string".toList]).2 } ["2,alice".toList]
      = some (0, "alice,\n".toList) ∧
    "alice,\n".toList ≠ List.intercalate [','] [fieldText "alice".toList FieldType.TYPE_STRING]
        ++ ['\n'] := by
  decide

/-- C16, amended. For every successfully matched message line, the text written
to standard output for that line is, for each declared field in schema order,
the rendering of the decoded field followed by "," and a line terminator: one
such piece, ending its own line, per declared field. -/
theorem line_output_per_field (defs : List Str) (line f0 : Str)
    (payload : List Str) (mp : MessagePattern)
    (hline : starts_with line '#' = false)
    (hsplit : boost_split ',' line = f0 :: payload)
    (hlookup : (MessagePatternManager.Init defs).2.LocatePattern (strtod f0).toInt = some mp)
    (hcount : mp._msg_fields.length ≤ payload.length) :
    (∃ rs, ParseLine (MessagePatternManager.Init defs).2 line = some rs ∧
      written rs
        = (List.zipWith (fun f tok => fieldText tok f.2 ++ [',', '\n'])
            mp._msg_fields payload).flatten) ∧
    (List.zipWith (fun f tok => fieldText tok f.2 ++ [',', '\n'])
        mp._msg_fields payload).length = mp._msg_fields.length ∧
    Parse { _mpmsptr := some (MessagePatternManager.Init defs).2 } [line]
      = some (0, (List.zipWith (fun f tok => fieldText tok f.2 ++ [',', '\n'])
            mp._msg_fields payload).flatten) := by
  have hpl := ParseLine_eq_zipWith _ line f0 payload mp hline hsplit hlookup hcount
  have hw := written_zipWith mp._msg_fields payload
    (located_fields_supported defs _ mp hlookup)
  refine ⟨⟨_, hpl, hw⟩, ?_, ?_⟩
  · rw [List.length_zipWith]; omega
  · simp [Parse, ParseLines, hpl, hw]

/-- The line "1,alice,1" writes "alice," and "true,", each on its own line. -/
theorem line_output_per_field_witness :
    Parse { _mpmsptr := some (MessagePatternManager.Init
        ["1;Login;user:string;ok:bool".toList]).2 } ["1,alice,1".toList]
      = some (0, (List.zipWith (fun f tok => fieldText tok f.2 ++ [',', '\n'])
            [("user".toList, FieldType.TYPE_STRING), ("ok".toList, FieldType.TYPE_BOOL)]
            ["alice".toList, "1".toList]).flatten) ∧
    (List.zipWith (fun f tok => fieldText tok f.2 ++ [',', '\n'])
        [("user".toList, FieldType.TYPE_STRING), ("ok".toList, FieldType.TYPE_BOOL)]
        ["alice".toList, "1".toList]).flatten = "alice,\ntrue,\n".toList :=
  ⟨(line_output_per_field ["1;Login;user:string;ok:bool".toList]
      "1,alice,1".toList "1".toList ["alice".toList, "1".toList]
      { _num_fields := 4, _msg_id := 1, _msg_name := "Login".toList,
        _msg_fields := [("user".toList, FieldType.TYPE_STRING),
                        ("ok".toList, FieldType.TYPE_BOOL)] }
      (by decide) (by decide) (by decide) (by decide)).2.2,
    by decide⟩

/-! ### Empty slots -/

/-- C18: the code at the line "1,,1" under the schema
"1;Login;user:string;ok:bool". The line has one slot per declared field, two
commas after the id, the first slot left empty; the split drops the empty slot,
the tokens are "1" and "1", and the loop reaches `msg_fields[2]`, out of
range. -/
theorem empty_slot_runs_out_of_range :
    List.count ',' "1,,1".toList = 2 ∧
    "1,,1".toList.splitOn ',' = ["1".toList, [], "1".toList] ∧
    boost_split ',' "1,,1".toList = ["1".toList, "1".toList] ∧
    (MessagePatternManager.Init ["1;Login;user:string;ok:bool".toList]).2.LocatePattern
        (strtod "1".toList).toInt
      = some { _num_fields := 4, _msg_id := 1, _msg_name := "Login".toList,
               _msg_fields := [("user".toList, FieldType.TYPE_STRING),
                               ("ok".toList, FieldType.TYPE_BOOL)] } ∧
    ["1".toList, "1".toList][1 + 1]? = none ∧
    ParseLine (MessagePatternManager.Init ["1;Login;user:string;ok:bool".toList]).2
        "1,,1".toList = none ∧
    Parse { _mpmsptr := some (MessagePatternManager.Init
        ["1;Login;user:string;ok:bool".toList]).2 } ["1,,1".toList] = none := by
  decide

end MessageParser

namespace MessageParser

/-- C1: the code at the line "1,,1," under the schema
"1;Login;user:string;ok:bool". The first token resolves to the schema with two
fields and the line carries the three payload tokens "", "1" and ""; the claim
pairs `user` with "" and `ok` with "1". The split drops the empty token between
the adjacent commas: `user` is decoded from "1" and `ok` from the trailing empty
token. -/
theorem empty_token_shifts_pairing :
    "1,,1,".toList.splitOn ',' = ["1".toList, [], "1".toList, []] ∧
    boost_split ',' "1,,1,".toList = ["1".toList, "1".toList, []] ∧
    (MessagePatternManager.Init ["1;Login;user:string;ok:bool".toList]).2.LocatePattern
        (strtod "1".toList).toInt
      = some { _num_fields := 4, _msg_id := 1, _msg_name := "Login".toList,
               _msg_fields := [("user".toList, FieldType.TYPE_STRING),
                               ("ok".toList, FieldType.TYPE_BOOL)] } ∧
    ParseLine (MessagePatternManager.Init ["1;Login;user:string;ok:bool".toList]).2
        "1,,1,".toList
      = some [ProcessMessageField "1".toList FieldType.TYPE_STRING,
              ProcessMessageField [] FieldType.TYPE_BOOL] ∧
    [ProcessMessageField "1".toList FieldType.TYPE_STRING,
     ProcessMessageField [] FieldType.TYPE_BOOL]
      = [(0, "1,\n".toList), (0, "false,\n".toList)] ∧
    [ProcessMessageField [] FieldType.TYPE_STRING,
     ProcessMessageField "1".toList FieldType.TYPE_BOOL]
      = [(0, ",\n".toList), (0, "true,\n".toList)] ∧
    Parse { _mpmsptr := some (MessagePatternManager.Init
        ["1;Login;user:string;ok:bool".toList]).2 } ["1,,1,".toList]
      = some (0, "1,\nfalse,\n".toList) := by
  decide

end MessageParser

end Buoy
